import Mathlib

/-!
# lstags: the remote tag fetcher (`tag/registry/registry.go`)

A shallow embedding of the bounded-concurrency digest fetcher and of the
helpers it is built from, followed by the properties proved about it.

Conventions of the embedding

* Go `int` values are `Int`.  `/` and `%` are Go's truncated division and
  remainder (`Int.tdiv`, `Int.tmod`); a zero divisor is a run-time panic.
  Every quantity computed below from a slice length and a limit in `[1,128]`
  stays between `0` and that length (`calculateBatchSteps_range`), so no
  64-bit operation wraps.
* A Go `error` is its message; `Option String` is an `error` that may be `nil`.
* A Go `map[string]V` is the function from keys to `Option V`; a `nil` map
  is `none : Option (GoMap V)`.
* A pair `(*T, error)` of which exactly one side is non-nil is `Except String T`.
* The network, the JSON decoder and the order in which goroutines deliver
  their results are parameters of the model.
-/

namespace Registry

/-- Run-time panics the translated code can raise. -/
inductive GoPanic where
  | divideByZero
  | indexOutOfRange
  deriving DecidableEq, Repr

deriving instance DecidableEq for Except

/-- Go `map[string]V`. -/
abbrev GoMap (V : Type) := String → Option V

/-- Value of `make(map[string]V)`. -/
def GoMap.empty {V : Type} : GoMap V := fun _ => none

/-- Statement `m[k] = v`. -/
def GoMap.set {V : Type} (m : GoMap V) (k : String) (v : V) : GoMap V :=
  fun k' => if k' = k then some v else m k'

/-- Expression `xs[i]` on a slice, with Go's bounds check. -/
def sliceIndex {α : Type} (xs : List α) (i : Int) : Except GoPanic α :=
  if 0 ≤ i then
    match xs[i.toNat]? with
    | some x => .ok x
    | none => .error .indexOutOfRange
  else .error .indexOutOfRange

/-- Function `strconv.Itoa`. -/
def Itoa (n : Int) : String := toString n

/-- The fields of `*http.Response` the code reads. -/
structure Response where
  StatusCode : Int
  Status : String
  Header : GoMap (List String)
  Body : String

/-- The world outside the program.

* `roundTrip url authorization` is what `http.NewRequest("GET", url, nil)`
  followed by `hc.Do(req)` yields: the error of either call, or the response.
* `decodeTagNames body` is `json.NewDecoder(body).Decode(&tn)` read back as
  `tn.TagNames`, or the decoder's error. -/
structure Env where
  roundTrip : String → String → Except String Response
  decodeTagNames : String → Except String (List String)

/-- Source: `httpRequest`. -/
def httpRequest (env : Env) (url authorization : String) : Except String Response :=
  match env.roundTrip url authorization with
  | .error err => .error err
  | .ok resp =>
    if resp.StatusCode ≠ 200 then
      .error ("Bad response status: " ++ resp.Status ++ " >> " ++ url)
    else .ok resp

/-- Source: `parseTagNamesJSON`. -/
def parseTagNamesJSON (env : Env) (data : String) : Except String (List String) :=
  match env.decodeTagNames data with
  | .error err => .error err
  | .ok tagNames => .ok tagNames

/-- Source: `fetchTagNames`. -/
def fetchTagNames (env : Env) (registry repo authorization : String) :
    Except String (List String) :=
  let url := "https://" ++ registry ++ "/v2/" ++ repo ++ "/tags/list"
  match httpRequest env url authorization with
  | .error err => .error err
  | .ok resp =>
    match parseTagNamesJSON env resp.Body with
    | .error _ => .ok []
    | .ok tagNames => .ok tagNames

/-- Source: `fetchRepoDigest`.  The result is the pair `(string, error)`;
`repoDigest[0]` is a bounds-checked index. -/
def fetchRepoDigest (env : Env) (registry repo tagName authorization : String) :
    Except GoPanic (String × Option String) :=
  let url := "https://" ++ registry ++ "/v2/" ++ repo ++ "/manifests/" ++ tagName
  match httpRequest env url authorization with
  | .error err => .ok ("[" ++ err ++ "]", none)
  | .ok resp =>
    match resp.Header "Docker-Content-Digest" with
    | none => .ok ("", some "header 'Docker-Content-Digest' not found in HTTP response")
    | some repoDigest =>
      match sliceIndex repoDigest 0 with
      | .error p => .error p
      | .ok d => .ok (d, none)

/-- Source: `digestResponse`. -/
structure digestResponse where
  TagName : String
  RepoDigest : String
  Error : Option String
  deriving DecidableEq, Repr

/-- Source: `validateConcurrency`. -/
def validateConcurrency (concurrency : Int) : Int × Option String :=
  let min : Int := 1
  let max : Int := 128
  if concurrency < min then
    (0, some ("Concurrency could not be lower than " ++ Itoa min))
  else if concurrency > max then
    (0, some ("Concurrency could not be higher than " ++ Itoa max))
  else (concurrency, none)

/-- Source: `calculateBatchSteps`. -/
def calculateBatchSteps (count limit : Int) : Except GoPanic (Int × Int) :=
  if limit = 0 then .error .divideByZero
  else
    let total := count.tdiv limit
    let remain := count.tmod limit
    if remain = 0 then .ok (total, 0)
    else .ok (total + 1, remain)

/-- Source: `calculateBatchStepSize`. -/
def calculateBatchStepSize (stepNumber stepsTotal remain limit : Int) : Int :=
  if remain ≠ 0 ∧ stepNumber = stepsTotal then remain
  else limit

/-- What the controlling flow of `FetchTags` does, in program order. -/
inductive Event where
  /-- `fetchTagNames` calls `httpRequest url`. -/
  | listRequest (url : String)
  /-- Batch `b` executes `ch := make(chan digestResponse, capacity)`. -/
  | makeChan (b : Int) (capacity : Int)
  /-- Batch `b` executes `go func(...)` on `tagNames[tagIndex]`. -/
  | launch (b : Int) (tagIndex : Int) (tagName : String)
  /-- Batch `b` executes `resp := <-ch`. -/
  | receive (b : Int) (resp : digestResponse)
  deriving DecidableEq, Repr

/-- How a call of `FetchTags` ends. -/
inductive Outcome where
  /-- Statement `return tags, err`. -/
  | returned (tags : Option (GoMap String)) (err : Option String)
  /-- The controlling flow itself panics (a division, or `tagNames[tagIndex]`). -/
  | panicked (p : GoPanic)
  /-- A launched goroutine panics, which ends the program. -/
  | crashed (p : GoPanic)
  /-- The controller waits on a channel nobody will send to. -/
  | blocked

/-- Body of the goroutine launched for `tagName`: the `digestResponse` it
sends on the channel, or the panic that kills the program instead. -/
def goroutine (env : Env) (registry repo tagName authorization : String) :
    Except GoPanic digestResponse :=
  match fetchRepoDigest env registry repo tagName authorization with
  | .error p => .error p
  | .ok (repoDigest, err) =>
    .ok { TagName := tagName, RepoDigest := repoDigest, Error := err }

/-- The launch loop `for s := 1; s <= stepSize; s++ { go ...; tagIndex++ }`
with `n` iterations left.  Returns the events, and either the panic of
`tagNames[tagIndex]` or the new `tagIndex` with the tag names handed to the
goroutines, in launch order. -/
def launchLoop (tagNames : List String) (b : Int) :
    Nat → Int → List Event × Except GoPanic (Int × List String)
  | 0, tagIndex => ([], .ok (tagIndex, []))
  | n + 1, tagIndex =>
    match sliceIndex tagNames tagIndex with
    | .error p => ([], .error p)
    | .ok tagName =>
      let rest := launchLoop tagNames b n (tagIndex + 1)
      (Event.launch b tagIndex tagName :: rest.1,
        match rest.2 with
        | .error p => .error p
        | .ok (tagIndex', launched) => .ok (tagIndex', tagName :: launched))

/-- How the receive loop of one batch ends. -/
inductive Collected where
  /-- All receives done; the loop over batches goes on with `tags`. -/
  | done (tags : GoMap String)
  /-- Statement `return nil, resp.Error`. -/
  | abort (err : String)
  /-- A goroutine of the batch panics before the controller is served. -/
  | crashed (p : GoPanic)
  /-- The channel is empty and no goroutine is left to send. -/
  | blocked

/-- The receive loop `for s := 1; s <= stepSize; s++ { resp := <-ch; ... }`
with `n` iterations left; `ch` lists, in the order the channel delivers
them, what the goroutines of the batch do. -/
def receiveLoop (b : Int) :
    Nat → List (Except GoPanic digestResponse) → GoMap String → List Event × Collected
  | 0, _, tags => ([], .done tags)
  | _ + 1, [], _ => ([], .blocked)
  | _ + 1, .error p :: _, _ => ([], .crashed p)
  | n + 1, .ok resp :: ch, tags =>
    match resp.Error with
    | some err => ([Event.receive b resp], .abort err)
    | none =>
      let rest := receiveLoop b n ch (tags.set resp.TagName resp.RepoDigest)
      (Event.receive b resp :: rest.1, rest.2)

/-- The order in which the goroutines of batch `b` deliver: a rearrangement
of what was launched. -/
abbrev Arrival := Int → List (Except GoPanic digestResponse) → List (Except GoPanic digestResponse)

/-- Every batch delivers exactly what its goroutines produce, in some order. -/
def Arrival.Fair (arrival : Arrival) : Prop :=
  ∀ b l, (arrival b l).Perm l

/-- The loop `for b := 1; b <= batchSteps; b++ { ... }` with `n` iterations
left. -/
def batchLoop (env : Env) (arrival : Arrival) (registry repo authorization : String)
    (tagNames : List String) (batchSteps batchRemain batchLimit : Int) :
    Nat → Int → Int → GoMap String → List Event × Outcome
  | 0, _, _, tags => ([], .returned (some tags) none)
  | n + 1, b, tagIndex, tags =>
    let stepSize := calculateBatchStepSize b batchSteps batchRemain batchLimit
    let launched := launchLoop tagNames b stepSize.toNat tagIndex
    match launched.2 with
    | .error p => (Event.makeChan b stepSize :: launched.1, .panicked p)
    | .ok (tagIndex', names) =>
      let ch := arrival b (names.map fun t => goroutine env registry repo t authorization)
      let collected := receiveLoop b stepSize.toNat ch tags
      match collected.2 with
      | .abort err =>
        (Event.makeChan b stepSize :: (launched.1 ++ collected.1), .returned none (some err))
      | .crashed p => (Event.makeChan b stepSize :: (launched.1 ++ collected.1), .crashed p)
      | .blocked => (Event.makeChan b stepSize :: (launched.1 ++ collected.1), .blocked)
      | .done tags' =>
        let rest := batchLoop env arrival registry repo authorization tagNames
          batchSteps batchRemain batchLimit n (b + 1) tagIndex' tags'
        (Event.makeChan b stepSize :: (launched.1 ++ collected.1 ++ rest.1), rest.2)

/-- The part of `FetchTags` after the tag names are listed.  The body of
`for b := 1; b <= batchSteps; b++` assigns neither `b` nor `batchSteps`, so the
loop runs `batchSteps` times (not at all when `batchSteps < 1`); likewise the
two inner loops run `stepSize` times each. -/
def fetchBatches (env : Env) (arrival : Arrival) (registry repo authorization : String)
    (tagNames : List String) (batchLimit : Int) : List Event × Outcome :=
  match calculateBatchSteps tagNames.length batchLimit with
  | .error p => ([], .panicked p)
  | .ok (batchSteps, batchRemain) =>
    batchLoop env arrival registry repo authorization tagNames
      batchSteps batchRemain batchLimit batchSteps.toNat 1 0 GoMap.empty

/-- Source: `FetchTags`.  Returns the events of the run and how it ends. -/
def FetchTags (env : Env) (arrival : Arrival) (registry repo authorization : String)
    (concurrency : Int) : List Event × Outcome :=
  match validateConcurrency concurrency with
  | (_, some err) => ([], .returned none (some err))
  | (batchLimit, none) =>
    let url := "https://" ++ registry ++ "/v2/" ++ repo ++ "/tags/list"
    match fetchTagNames env registry repo authorization with
    | .error err => ([Event.listRequest url], .returned none (some err))
    | .ok tagNames =>
      let run := fetchBatches env arrival registry repo authorization tagNames batchLimit
      (Event.listRequest url :: run.1, run.2)

/-! ## Helper definitions used in the statements -/

/-- The events of launching `names`, the first of them at index `tagIndex`. -/
def launchEvents (b : Int) : Int → List String → List Event
  | _, [] => []
  | tagIndex, t :: ts => Event.launch b tagIndex t :: launchEvents b (tagIndex + 1) ts

/-- Number of `go` statements in a trace. -/
def launched (tr : List Event) : Nat :=
  tr.countP fun e => match e with
    | .launch _ _ _ => true
    | _ => false

/-- Number of channel receives in a trace. -/
def collected (tr : List Event) : Nat :=
  tr.countP fun e => match e with
    | .receive _ _ => true
    | _ => false

/-- Number of `go` statements of batch `b` in a trace. -/
def launchedIn (b : Int) (tr : List Event) : Nat :=
  tr.countP fun e => match e with
    | .launch b' _ _ => decide (b' = b)
    | _ => false

/-- Number of channel receives of batch `b` in a trace. -/
def collectedIn (b : Int) (tr : List Event) : Nat :=
  tr.countP fun e => match e with
    | .receive b' _ => decide (b' = b)
    | _ => false

/-- The `(tagIndex, tagName)` pairs batch `b` launches, in trace order. -/
def launchesOf (b : Int) (tr : List Event) : List (Int × String) :=
  tr.filterMap fun e => match e with
    | .launch b' i t => if b' = b then some (i, t) else none
    | _ => none

/-- The indices of all launches of a trace, in trace order. -/
def launchedIndices (tr : List Event) : List Int :=
  tr.filterMap fun e => match e with
    | .launch _ i _ => some i
    | _ => none

/-- How the rest of the run continues after the receive loop of a batch. -/
def continueWith (c : Collected) (next : GoMap String → List Event × Outcome) :
    List Event × Outcome :=
  match c with
  | .done tags => next tags
  | .abort err => ([], .returned none (some err))
  | .crashed p => ([], .crashed p)
  | .blocked => ([], .blocked)

/-- The digest `fetchRepoDigest` returns for a tag (`""` if it panics). -/
def digestOf (env : Env) (registry repo authorization : String) (tagName : String) : String :=
  match fetchRepoDigest env registry repo tagName authorization with
  | .ok (d, _) => d
  | .error _ => ""

/-- The goroutines of a batch deliver in launch order. -/
def inOrder : Arrival := fun _ l => l

/-- The goroutines of a batch deliver in reverse launch order. -/
def reversed : Arrival := fun _ l => l.reverse

/-- A 200 response carrying `digest` in its `Docker-Content-Digest` header. -/
def digestResponseOk (digest : String) : Response :=
  { StatusCode := 200, Status := "200 OK",
    Header := GoMap.empty.set "Docker-Content-Digest" [digest], Body := "" }

/-- A 200 response without a `Docker-Content-Digest` header. -/
def bareResponse : Response :=
  { StatusCode := 200, Status := "200 OK", Header := GoMap.empty, Body := "" }

/-- A registry for concrete runs: the tag list of `registry/repo` is `tags`,
and the manifest request of tag `t` is answered by `manifest t`. -/
def stubEnv (registry repo : String) (tags : List String)
    (manifest : String → Except String Response) : Env :=
  { roundTrip := fun url _ =>
      if url = "https://" ++ registry ++ "/v2/" ++ repo ++ "/tags/list" then .ok bareResponse
      else
        match tags.find? fun t =>
          url = "https://" ++ registry ++ "/v2/" ++ repo ++ "/manifests/" ++ t with
        | some t => manifest t
        | none => .error "no such host"
    decodeTagNames := fun _ => .ok tags }

/-- Digests `d1..d5` of the tags `v1..v5`. -/
def demoDigest (t : String) : String :=
  ([("v1", "d1"), ("v2", "d2"), ("v3", "d3"), ("v4", "d4"), ("v5", "d5"),
    ("a", "da"), ("b", "db"), ("c", "dc")].lookup t).getD ""

/-- The batch an event belongs to; the listing request belongs to none. -/
def batchOf : Event → Option Int
  | .listRequest _ => none
  | .makeChan b _ => some b
  | .launch b _ _ => some b
  | .receive b _ => some b

/-- Tag names paired with their indices, the first index being `tagIndex`. -/
def indexed : Int → List String → List (Int × String)
  | _, [] => []
  | tagIndex, t :: ts => (tagIndex, t) :: indexed (tagIndex + 1) ts

/-- Modelled from the claim's words: the tags are processed one at a time in
input order; the first non-nil fetch error ends the run with a nil map and
that error, and otherwise each tag is mapped to its digest. -/
def oneAtATime (env : Env) (registry repo authorization : String) :
    List String → GoMap String → Outcome
  | [], tags => .returned (some tags) none
  | t :: ts, tags =>
    match fetchRepoDigest env registry repo t authorization with
    | .error p => .crashed p
    | .ok (_, some err) => .returned none (some err)
    | .ok (d, none) => oneAtATime env registry repo authorization ts (tags.set t d)

/-- A registry that cannot be reached. -/
def downEnv : Env :=
  { roundTrip := fun _ _ => .error "connection refused"
    decodeTagNames := fun _ => .ok [] }

/-- A registry whose tag list is not the expected JSON. -/
def garbledEnv : Env :=
  { roundTrip := fun _ _ => .ok bareResponse
    decodeTagNames := fun _ => .error "invalid character" }

/-- A registry that answers every request with status 404. -/
def notFoundEnv : Env :=
  { roundTrip := fun _ _ =>
      .ok { StatusCode := 404, Status := "404 Not Found", Header := GoMap.empty, Body := "" }
    decodeTagNames := fun _ => .ok [] }

/-- An operation of a goroutine or of the controller on a batch's channel. -/
inductive ChanOp where
  /-- A goroutine executes `ch <- digestResponse`. -/
  | send
  /-- The controller executes `<-ch`. -/
  | recv
  deriving DecidableEq, Repr

/-- Number of sends in a history of channel operations. -/
def sends (ops : List ChanOp) : Nat := ops.count .send

/-- Number of receives in a history of channel operations. -/
def recvs (ops : List ChanOp) : Nat := ops.count .recv

/-- Number of values a buffered channel holds after a history: one more per
send, one fewer per receive. -/
def buffered (ops : List ChanOp) : Int := (sends ops : Int) - recvs ops

end Registry

/-! # The local tag reader (`tag/local/local.go`)

Go strings are read as their characters; the separators `"@"` and `":"` are
single ASCII characters, so splitting on them and testing a prefix agree with
the byte-wise library functions on UTF-8 text. -/

namespace Local

open Registry (GoPanic sliceIndex)

/-- The fields of `strings.Split(s, sep)` for a one-character separator, on the
characters of `s`: there is one more field than there are separators. -/
def splitChars (sep : Char) : List Char → List (List Char)
  | [] => [[]]
  | c :: cs =>
    if c = sep then [] :: splitChars sep cs
    else
      match splitChars sep cs with
      | f :: fs => (c :: f) :: fs
      | [] => [[c]]

/-- Function `strings.Split` with a one-character separator (the source splits
on `"@"` and on `":"`). -/
def Split (s : String) (sep : Char) : List String :=
  (splitChars sep s.data).map String.mk

/-- Function `strings.HasPrefix`. -/
def HasPrefix (s pre : String) : Bool :=
  pre.data.isPrefixOf s.data

/-- Source: `extractRepoDigest`; `digestFields[1]` is a bounds-checked index. -/
def extractRepoDigest (repoDigests : List String) : Except GoPanic String :=
  if repoDigests.length = 0 then .ok ""
  else
    match sliceIndex repoDigests 0 with
    | .error p => .error p
    | .ok digestString =>
      let digestFields := Split digestString '@'
      sliceIndex digestFields 1

/-- The loop `for _, tag := range repoTags { ... }` of `extractTagNames`, with
the `tagNames` appended so far. -/
def extractTagNamesLoop (repo : String) :
    List String → List String → Except GoPanic (List String)
  | [], tagNames => .ok tagNames
  | tag :: rest, tagNames =>
    if HasPrefix tag (repo ++ ":") then
      let fields := Split tag ':'
      match sliceIndex fields 1 with
      | .error p => .error p
      | .ok name => extractTagNamesLoop repo rest (tagNames ++ [name])
    else extractTagNamesLoop repo rest tagNames

/-- Source: `extractTagNames`; `fields[1]` is a bounds-checked index. -/
def extractTagNames (repoTags : List String) (repo : String) : Except GoPanic (List String) :=
  extractTagNamesLoop repo repoTags []

end Local

namespace Registry

/-! ## Batch arithmetic -/

theorem calculateBatchSteps_eq (count limit : Int) (hl : 1 ≤ limit) (hc : 0 ≤ count) :
    calculateBatchSteps count limit =
      .ok (if count % limit = 0 then count / limit else count / limit + 1, count % limit) := by
  have h0 : limit ≠ 0 := by omega
  have hd : count.tdiv limit = count / limit := Int.tdiv_eq_ediv hc (by omega)
  have hm : count.tmod limit = count % limit := Int.tmod_eq_emod hc (by omega)
  unfold calculateBatchSteps
  simp only [h0, if_false, hd, hm]
  by_cases h : count % limit = 0 <;> simp [h]

/-- Both results of `calculateBatchSteps` lie between `0` and `count`. -/
theorem calculateBatchSteps_range (count limit steps remain : Int) (hl : 1 ≤ limit)
    (hc : 0 ≤ count) (h : calculateBatchSteps count limit = .ok (steps, remain)) :
    0 ≤ steps ∧ steps ≤ count ∧ 0 ≤ remain ∧ remain < limit ∧ remain ≤ count := by
  rw [calculateBatchSteps_eq count limit hl hc] at h
  injection h with h
  injection h with h1 h2
  have hq : 0 ≤ count / limit := Int.ediv_nonneg hc (by omega)
  have hr0 : 0 ≤ count % limit := Int.emod_nonneg _ (by omega)
  have hr1 : count % limit < limit := Int.emod_lt_of_pos _ (by omega)
  have hdm : limit * (count / limit) + count % limit = count := Int.ediv_add_emod count limit
  have hql : count / limit ≤ limit * (count / limit) := by nlinarith
  subst h1 h2
  refine ⟨by split <;> omega, ?_, hr0, hr1, by omega⟩
  split
  · omega
  · have : 0 < count % limit := by omega
    by_cases h1 : limit = 1
    · subst h1; omega
    · have : 2 * (count / limit) ≤ limit * (count / limit) := by nlinarith
      omega

theorem sum_Icc_one (n : Nat) (f : Int → Int) :
    ∑ b ∈ Finset.Icc (1 : Int) n, f b = ∑ i ∈ Finset.range n, f ((i : Int) + 1) := by
  rw [Int.Icc_eq_finset_map]
  simp [Finset.sum_map, add_comm]

theorem sum_sizes (n : Nat) (last limit : Int) (f : Int → Int)
    (hf : ∀ b : Int, 1 ≤ b → b < n + 1 → f b = limit) (hlast : f (n + 1) = last) :
    ∑ b ∈ Finset.Icc (1 : Int) (n + 1 : Nat), f b = n * limit + last := by
  rw [sum_Icc_one, Finset.sum_range_succ, hlast]
  congr 1
  have h : ∀ i ∈ Finset.range n, f ((i : Int) + 1) = limit := fun i hi =>
    hf (i + 1) (by omega) (by have := Finset.mem_range.1 hi; omega)
  rw [Finset.sum_congr rfl h]
  simp

/-- C1: for a limit in [1,128] and a count of at least 0, `calculateBatchSteps`
returns `ceil(count/limit)` steps; the step sizes of batches `1..steps` add up
to `count`; every batch before the last has size `limit`; and the last batch
has size `count mod limit` when that is nonzero and `limit` otherwise. -/
theorem batch_sizes (count limit : Int) (hl : 1 ≤ limit) (hu : limit ≤ 128) (hc : 0 ≤ count) :
    ∃ steps remain, calculateBatchSteps count limit = .ok (steps, remain) ∧
      steps = ⌈(count : ℚ) / (limit : ℚ)⌉ ∧
      ∑ b ∈ Finset.Icc 1 steps, calculateBatchStepSize b steps remain limit = count ∧
      (∀ b, 1 ≤ b → b < steps → calculateBatchStepSize b steps remain limit = limit) ∧
      (1 ≤ steps → calculateBatchStepSize steps steps remain limit =
        if count % limit ≠ 0 then count % limit else limit) := by
  have hq : 0 ≤ count / limit := Int.ediv_nonneg hc (by omega)
  have hr0 : 0 ≤ count % limit := Int.emod_nonneg _ (by omega)
  have hr1 : count % limit < limit := Int.emod_lt_of_pos _ (by omega)
  have hdm : limit * (count / limit) + count % limit = count := Int.ediv_add_emod count limit
  have hlq : (0 : ℚ) < limit := by exact_mod_cast (show (0 : Int) < limit by omega)
  refine ⟨_, _, calculateBatchSteps_eq count limit hl hc, ?_, ?_, ?_, ?_⟩
  · symm
    rw [Int.ceil_eq_iff, lt_div_iff₀ hlq, div_le_iff₀ hlq]
    by_cases h : count % limit = 0
    · simp only [h, if_true]
      rw [h, add_zero] at hdm
      constructor
      · have : (count / limit - 1) * limit < count := by nlinarith
        exact_mod_cast this
      · have : count ≤ (count / limit) * limit := by nlinarith
        exact_mod_cast this
    · simp only [h, if_false]
      constructor
      · have : (count / limit + 1 - 1) * limit < count := by
          have : 0 < count % limit := by omega
          nlinarith
        exact_mod_cast this
      · have : count ≤ (count / limit + 1) * limit := by nlinarith
        exact_mod_cast this
  · by_cases h : count % limit = 0
    · simp only [h, if_true]
      rw [h, add_zero] at hdm
      have hsz : ∀ b, calculateBatchStepSize b (count / limit) 0 limit = limit := by
        intro b; simp [calculateBatchStepSize]
      simp only [hsz]
      simp
      rw [max_eq_left hq]
      linarith
    · simp only [h, if_false]
      obtain ⟨n, hn⟩ := Int.eq_ofNat_of_zero_le hq
      rw [hn]
      have := sum_sizes n (count % limit) limit
        (fun b => calculateBatchStepSize b ((n : Int) + 1) (count % limit) limit)
        (by intro b h1 h2; simp [calculateBatchStepSize, h]; intro hb; omega)
        (by simp [calculateBatchStepSize, h])
      push_cast at this
      rw [this, ← hn]
      linarith
  · intro b h1 h2
    simp only [calculateBatchStepSize]
    rw [if_neg]
    rintro ⟨-, hb⟩
    omega
  · intro h1
    by_cases h : count % limit = 0
    · simp [calculateBatchStepSize, h]
    · simp [calculateBatchStepSize, h]

/-- Witness of `batch_sizes`: five tags, limit two. -/
theorem batch_sizes_witness :
    (1 : Int) ≤ 2 ∧ (2 : Int) ≤ 128 ∧ (0 : Int) ≤ 5 ∧
    ∃ steps remain, calculateBatchSteps 5 2 = .ok (steps, remain) ∧
      steps = ⌈((5 : Int) : ℚ) / ((2 : Int) : ℚ)⌉ ∧
      ∑ b ∈ Finset.Icc 1 steps, calculateBatchStepSize b steps remain 2 = 5 ∧
      (∀ b, 1 ≤ b → b < steps → calculateBatchStepSize b steps remain 2 = 2) ∧
      (1 ≤ steps → calculateBatchStepSize steps steps remain 2 =
        if (5 : Int) % 2 ≠ 0 then (5 : Int) % 2 else 2) :=
  ⟨by decide, by decide, by decide, batch_sizes 5 2 (by decide) (by decide) (by decide)⟩


theorem sliceIndex_ok {α : Type} (xs : List α) (i : Nat) (h : i < xs.length) :
    sliceIndex xs (i : Int) = .ok xs[i] := by
  simp [sliceIndex, List.getElem?_eq_getElem h]

theorem sliceIndex_mem {α : Type} (xs : List α) (i : Int) (x : α)
    (h : sliceIndex xs i = .ok x) : 0 ≤ i ∧ i < xs.length ∧ xs[i.toNat]? = some x := by
  unfold sliceIndex at h
  split at h
  · split at h
    · next y hy =>
      injection h with h
      subst h
      have := (List.getElem?_eq_some_iff.1 hy).1
      exact ⟨by assumption, by omega, hy⟩
    · cases h
  · cases h

theorem launchLoop_eq (tagNames : List String) (b : Int) :
    ∀ (n ti : Nat), ti + n ≤ tagNames.length →
      launchLoop tagNames b n ti =
        (launchEvents b ti ((tagNames.drop ti).take n),
          .ok ((ti : Int) + n, (tagNames.drop ti).take n)) := by
  intro n
  induction n with
  | zero => intro ti _; simp [launchLoop, launchEvents]
  | succ n ih =>
    intro ti h
    have hlt : ti < tagNames.length := by omega
    have ih' := ih (ti + 1) (by omega)
    push_cast at ih'
    rw [launchLoop, sliceIndex_ok tagNames ti hlt]
    simp only [ih']
    rw [List.drop_eq_getElem_cons hlt, List.take_succ_cons]
    simp only [launchEvents]
    have e : (ti : Int) + 1 + n = (ti : Int) + (n + 1 : Nat) := by push_cast; omega
    rw [e]


theorem batchLoop_step (env : Env) (arrival : Arrival) (registry repo authorization : String)
    (tagNames : List String) (batchSteps batchRemain batchLimit : Int) (n : Nat) (b : Int)
    (k s : Nat) (tags : GoMap String)
    (hsz : calculateBatchStepSize b batchSteps batchRemain batchLimit = (s : Int))
    (hk : k + s ≤ tagNames.length) :
    batchLoop env arrival registry repo authorization tagNames batchSteps batchRemain batchLimit
        (n + 1) b (k : Int) tags =
      let names := (tagNames.drop k).take s
      let rl := receiveLoop b s
        (arrival b (names.map fun t => goroutine env registry repo t authorization)) tags
      let rest := continueWith rl.2 fun tags' =>
        batchLoop env arrival registry repo authorization tagNames batchSteps batchRemain
          batchLimit n (b + 1) ((k + s : Nat) : Int) tags'
      (Event.makeChan b s :: (launchEvents b k names ++ rl.1 ++ rest.1), rest.2) := by
  rw [batchLoop]
  simp only [hsz, Int.toNat_ofNat, launchLoop_eq tagNames b s k hk]
  cases h : (receiveLoop b s (arrival b (((tagNames.drop k).take s).map
      fun t => goroutine env registry repo t authorization)) tags).2 <;>
    simp [continueWith, h]


/-- Where batch `b` starts and ends, for `1 ≤ b ≤ steps`. -/
theorem batch_facts (count limit steps remain b : Int) (hl : 1 ≤ limit) (hc : 0 ≤ count)
    (h : calculateBatchSteps count limit = .ok (steps, remain)) (hb1 : 1 ≤ b) (hb2 : b ≤ steps) :
    1 ≤ calculateBatchStepSize b steps remain limit ∧
    calculateBatchStepSize b steps remain limit ≤ limit ∧
    min ((b - 1) * limit) count = (b - 1) * limit ∧
    (b - 1) * limit + calculateBatchStepSize b steps remain limit = min (b * limit) count := by
  rw [calculateBatchSteps_eq count limit hl hc] at h
  injection h with h
  injection h with h1 h2
  have hq : 0 ≤ count / limit := Int.ediv_nonneg hc (by omega)
  have hr0 : 0 ≤ count % limit := Int.emod_nonneg _ (by omega)
  have hr1 : count % limit < limit := Int.emod_lt_of_pos _ (by omega)
  have hdm : limit * (count / limit) + count % limit = count := Int.ediv_add_emod count limit
  have hl0 : (0 : Int) ≤ limit := by omega
  subst h2
  by_cases hr : count % limit = 0
  · rw [if_pos hr] at h1
    subst h1
    have e : calculateBatchStepSize b (count / limit) (count % limit) limit = limit := by
      simp [calculateBatchStepSize, hr]
    have m1 : b * limit ≤ count / limit * limit := mul_le_mul_of_nonneg_right hb2 hl0
    rw [e]
    refine ⟨hl, le_refl _, ?_, ?_⟩
    · rw [min_eq_left]; nlinarith
    · rw [min_eq_left]; ring; nlinarith
  · rw [if_neg hr] at h1
    subst h1
    by_cases hb : b = count / limit + 1
    · have e : calculateBatchStepSize b (count / limit + 1) (count % limit) limit
          = count % limit := by
        simp [calculateBatchStepSize, hr, hb]
      rw [e]
      subst hb
      refine ⟨by omega, by omega, ?_, ?_⟩
      · rw [min_eq_left]; nlinarith
      · rw [min_eq_right]; nlinarith; nlinarith
    · have e : calculateBatchStepSize b (count / limit + 1) (count % limit) limit = limit := by
        simp [calculateBatchStepSize, hr, hb]
      have hb3 : b ≤ count / limit := by omega
      have m1 : b * limit ≤ count / limit * limit := mul_le_mul_of_nonneg_right hb3 hl0
      rw [e]
      refine ⟨hl, le_refl _, ?_, ?_⟩
      · rw [min_eq_left]; nlinarith
      · rw [min_eq_left]; ring; nlinarith

/-- After the last batch every tag has been handed out. -/
theorem final_facts (count limit steps remain : Int) (hl : 1 ≤ limit) (hc : 0 ≤ count)
    (h : calculateBatchSteps count limit = .ok (steps, remain)) :
    min (steps * limit) count = count := by
  rw [calculateBatchSteps_eq count limit hl hc] at h
  injection h with h
  injection h with h1 h2
  have hr1 : count % limit < limit := Int.emod_lt_of_pos _ (by omega)
  have hdm : limit * (count / limit) + count % limit = count := Int.ediv_add_emod count limit
  subst h1
  rw [min_eq_right]
  split
  · next hr => rw [hr] at hdm; nlinarith
  · nlinarith


/-- Induction over the batches of a run: `b` is the batch about to start and
`k` the number of tags already handed to goroutines. -/
theorem batchLoop_induction (env : Env) (arrival : Arrival)
    (registry repo authorization : String) (tagNames : List String)
    (steps remain limit : Int) (hl : 1 ≤ limit)
    (hcalc : calculateBatchSteps tagNames.length limit = .ok (steps, remain))
    (P : Int → Nat → GoMap String → List Event × Outcome → Prop)
    (base : ∀ tags, P (steps + 1) tagNames.length tags ([], .returned (some tags) none))
    (step : ∀ (n : Nat) (b : Int) (k s : Nat) (tags : GoMap String),
      1 ≤ b → b + n = steps → (k : Int) = (b - 1) * limit →
      (s : Int) = calculateBatchStepSize b steps remain limit → 1 ≤ s → (s : Int) ≤ limit →
      ((k + s : Nat) : Int) = min (b * limit) tagNames.length →
      (∀ tags', P (b + 1) (k + s) tags'
        (batchLoop env arrival registry repo authorization tagNames steps remain limit
          n (b + 1) ((k + s : Nat) : Int) tags')) →
      ∀ rl : List Event × Collected,
        rl = receiveLoop b s (arrival b (((tagNames.drop k).take s).map
          fun t => goroutine env registry repo t authorization)) tags →
        P b k tags
          (Event.makeChan b s :: (launchEvents b k ((tagNames.drop k).take s) ++ rl.1 ++
            (continueWith rl.2 fun tags' =>
              batchLoop env arrival registry repo authorization tagNames steps remain limit
                n (b + 1) ((k + s : Nat) : Int) tags').1),
           (continueWith rl.2 fun tags' =>
              batchLoop env arrival registry repo authorization tagNames steps remain limit
                n (b + 1) ((k + s : Nat) : Int) tags').2)) :
    ∀ (n : Nat) (b : Int) (k : Nat) (tags : GoMap String),
      1 ≤ b → b + n = steps + 1 → (k : Int) = min ((b - 1) * limit) tagNames.length →
      P b k tags
        (batchLoop env arrival registry repo authorization tagNames steps remain limit
          n b (k : Int) tags) := by
  have hc : (0 : Int) ≤ tagNames.length := Int.natCast_nonneg _
  intro n
  induction n with
  | zero =>
    intro b k tags _ hb hk
    have hb' : b = steps + 1 := by omega
    subst hb'
    rw [add_sub_cancel_right, final_facts _ _ _ _ hl hc hcalc] at hk
    have hk' : k = tagNames.length := by exact_mod_cast hk
    subst hk'
    exact base tags
  | succ n ih =>
    intro b k tags hb1 hb hk
    obtain ⟨f1, f2, f3, f4⟩ := batch_facts _ _ _ _ b hl hc hcalc hb1 (by omega)
    rw [f3] at hk
    obtain ⟨s, hs⟩ := Int.eq_ofNat_of_zero_le
      (show 0 ≤ calculateBatchStepSize b steps remain limit by omega)
    have hks : ((k + s : Nat) : Int) = min (b * limit) tagNames.length := by
      push_cast; rw [hk, ← hs, f4]
    have hle : k + s ≤ tagNames.length := by
      have : ((k + s : Nat) : Int) ≤ tagNames.length := by rw [hks]; exact min_le_right _ _
      exact_mod_cast this
    rw [batchLoop_step env arrival registry repo authorization tagNames steps remain limit
      n b k s tags hs hle]
    refine step n b k s tags hb1 (by omega) hk hs.symm (by omega) (by omega) hks ?_ _ rfl
    intro tags'
    exact ih (b + 1) (k + s) tags' (by omega) (by omega) (by rw [hks]; ring_nf)

theorem goroutine_ok (env : Env) (registry repo t authorization : String) (d : String)
    (e : Option String) (h : fetchRepoDigest env registry repo t authorization = .ok (d, e)) :
    goroutine env registry repo t authorization =
      .ok { TagName := t, RepoDigest := d, Error := e } := by
  simp [goroutine, h]

theorem goroutine_inv (env : Env) (registry repo t authorization : String) (r : digestResponse)
    (h : goroutine env registry repo t authorization = .ok r) :
    r.TagName = t ∧
      fetchRepoDigest env registry repo t authorization = .ok (r.RepoDigest, r.Error) := by
  unfold goroutine at h
  split at h
  · cases h
  · next d e hd =>
    injection h with h
    subst h
    exact ⟨rfl, hd⟩

/-- The only error `fetchRepoDigest` returns: a 200 response without the header. -/
theorem fetchRepoDigest_error (env : Env) (registry repo t authorization d e : String)
    (h : fetchRepoDigest env registry repo t authorization = .ok (d, some e)) :
    d = "" ∧ e = "header 'Docker-Content-Digest' not found in HTTP response" ∧
      ∃ resp, httpRequest env ("https://" ++ registry ++ "/v2/" ++ repo ++ "/manifests/" ++ t)
          authorization = .ok resp ∧ resp.Header "Docker-Content-Digest" = none := by
  unfold fetchRepoDigest at h
  simp only at h
  split at h
  · cases h
  · next resp hr =>
    split at h
    · next hh =>
      injection h with h
      injection h with h1 h2
      injection h2 with h2
      exact ⟨h1.symm, h2.symm, resp, hr, hh⟩
    · split at h
      · cases h
      · cases h

theorem receiveLoop_abort (b : Int) :
    ∀ (n : Nat) (ch : List (Except GoPanic digestResponse)) (tags : GoMap String) (e : String),
      (receiveLoop b n ch tags).2 = .abort e → ∃ r, .ok r ∈ ch ∧ r.Error = some e := by
  intro n
  induction n with
  | zero => intro ch tags e h; simp [receiveLoop] at h
  | succ n ih =>
    intro ch tags e h
    match ch with
    | [] => simp [receiveLoop] at h
    | .error p :: _ => simp [receiveLoop] at h
    | .ok resp :: ch =>
      rw [receiveLoop] at h
      split at h
      · next err he =>
        simp at h
        subst h
        exact ⟨resp, by simp, he⟩
      · obtain ⟨r, hr, hre⟩ := ih _ _ _ h
        exact ⟨r, by simp [hr], hre⟩

theorem receiveLoop_clean (b : Int) (dg : String → String) :
    ∀ (ch : List (Except GoPanic digestResponse)) (tags : GoMap String),
      (∀ x ∈ ch, ∃ r, x = .ok r ∧ r.Error = none ∧ r.RepoDigest = dg r.TagName) →
      ∃ tags', (receiveLoop b ch.length ch tags).2 = .done tags' ∧
        (∀ r, .ok r ∈ ch → tags' r.TagName = some (dg r.TagName)) ∧
        (∀ k, (∀ r, .ok r ∈ ch → r.TagName ≠ k) → tags' k = tags k) := by
  intro ch
  induction ch with
  | nil => intro tags _; exact ⟨tags, by simp [receiveLoop], by simp, by simp⟩
  | cons x ch ih =>
    intro tags h
    obtain ⟨r, rfl, he, hd⟩ := h x (by simp)
    obtain ⟨tags', h1, h2, h3⟩ := ih (tags.set r.TagName r.RepoDigest)
      (fun y hy => h y (by simp [hy]))
    refine ⟨tags', ?_, ?_, ?_⟩
    · simp only [List.length_cons, receiveLoop, he]
      exact h1
    · intro r' hr'
      simp only [List.mem_cons] at hr'
      by_cases hin : ∃ r'', .ok r'' ∈ ch ∧ r''.TagName = r'.TagName
      · obtain ⟨r'', h4, h5⟩ := hin
        rw [← h5]; exact h2 r'' h4
      · have : tags' r'.TagName = (tags.set r.TagName r.RepoDigest) r'.TagName :=
          h3 _ (fun r'' h4 h5 => hin ⟨r'', h4, h5⟩)
        rcases hr' with hr' | hr'
        · injection hr' with hr'
          subst hr'
          rw [this, hd]; simp [GoMap.set]
        · exact absurd ⟨r', hr', rfl⟩ hin
    · intro k hk
      rw [h3 k (fun r' hr' => hk r' (by simp [hr']))]
      have : k ≠ r.TagName := fun h => hk r (by simp) h.symm
      simp [GoMap.set, this]

theorem receiveLoop_dirty (b : Int) (E : String) :
    ∀ (ch : List (Except GoPanic digestResponse)) (tags : GoMap String),
      (∀ x ∈ ch, ∃ r, x = .ok r ∧ (r.Error = none ∨ r.Error = some E)) →
      (∃ r, .ok r ∈ ch ∧ r.Error = some E) →
      (receiveLoop b ch.length ch tags).2 = .abort E := by
  intro ch
  induction ch with
  | nil => intro tags _ h; simp at h
  | cons x ch ih =>
    intro tags h hex
    obtain ⟨r, rfl, he⟩ := h x (by simp)
    rcases he with he | he
    · simp only [List.length_cons, receiveLoop, he]
      apply ih _ (fun y hy => h y (by simp [hy]))
      obtain ⟨r', hr', he'⟩ := hex
      simp only [List.mem_cons] at hr'
      rcases hr' with hr' | hr'
      · injection hr' with hr'
        subst hr'
        rw [he] at he'; cases he'
      · exact ⟨r', hr', he'⟩
    · simp only [List.length_cons, receiveLoop, he]

/-- The events of a receive loop are receives of its own batch, at most `n`
of them, and exactly `n` when the loop completes. -/
theorem receiveLoop_trace (b : Int) :
    ∀ (n : Nat) (ch : List (Except GoPanic digestResponse)) (tags : GoMap String),
      ∃ rs : List digestResponse, (receiveLoop b n ch tags).1 = rs.map (Event.receive b) ∧
        rs.length ≤ n ∧ (∀ tags', (receiveLoop b n ch tags).2 = .done tags' → rs.length = n) := by
  intro n
  induction n with
  | zero => intro ch tags; exact ⟨[], by simp [receiveLoop], by simp, by simp⟩
  | succ n ih =>
    intro ch tags
    match ch with
    | [] => exact ⟨[], by simp [receiveLoop], by simp, by simp [receiveLoop]⟩
    | .error p :: _ => exact ⟨[], by simp [receiveLoop], by simp, by simp [receiveLoop]⟩
    | .ok resp :: ch =>
      rw [receiveLoop]
      split
      · exact ⟨[resp], by simp, by simp, by simp⟩
      · obtain ⟨rs, h1, h2, h3⟩ := ih ch (tags.set resp.TagName resp.RepoDigest)
        exact ⟨resp :: rs, by simp [h1], by simp [h2], by
          intro tags' h; simp [h3 tags' h]⟩

theorem receiveLoop_progress (b : Int) :
    ∀ (ch : List (Except GoPanic digestResponse)) (tags : GoMap String),
      (∀ x ∈ ch, ∃ r, x = .ok r ∧ r.Error = none) →
      ∃ tags', (receiveLoop b ch.length ch tags).2 = .done tags' := by
  intro ch
  induction ch with
  | nil => intro tags _; exact ⟨tags, by simp [receiveLoop]⟩
  | cons x ch ih =>
    intro tags h
    obtain ⟨r, rfl, he⟩ := h x (by simp)
    obtain ⟨tags', h1⟩ := ih (tags.set r.TagName r.RepoDigest) (fun y hy => h y (by simp [hy]))
    exact ⟨tags', by simp only [List.length_cons, receiveLoop, he]; exact h1⟩

/-- What a fair channel of a batch holds. -/
theorem fair_channel (env : Env) (arrival : Arrival) (hfair : arrival.Fair)
    (registry repo authorization : String) (tagNames : List String) (b : Int) (k s : Nat)
    (hks : k + s ≤ tagNames.length) :
    let ch := arrival b (((tagNames.drop k).take s).map
      fun t => goroutine env registry repo t authorization)
    ch.length = s ∧
    (∀ x, x ∈ ch ↔ ∃ t ∈ (tagNames.drop k).take s,
      goroutine env registry repo t authorization = x) := by
  intro ch
  have hp : ch.Perm (((tagNames.drop k).take s).map
      fun t => goroutine env registry repo t authorization) := hfair b _
  constructor
  · rw [hp.length_eq]; simp; omega
  · intro x
    rw [hp.mem_iff, List.mem_map]

theorem mem_drop_split (tagNames : List String) (k s : Nat) (x : String) :
    x ∈ tagNames.drop k ↔ x ∈ (tagNames.drop k).take s ∨ x ∈ tagNames.drop (k + s) := by
  conv_lhs => rw [← List.take_append_drop s (tagNames.drop k)]
  rw [List.mem_append, List.drop_drop, Nat.add_comm]

theorem mem_of_mem_slice (tagNames : List String) (k s : Nat) (x : String)
    (h : x ∈ (tagNames.drop k).take s) : x ∈ tagNames :=
  List.mem_of_mem_drop (List.mem_of_mem_take h)

/-- When every fetch returns a digest and no error, the batches return the
map from each remaining tag to its digest, over what was there before. -/
theorem batchLoop_clean (env : Env) (arrival : Arrival) (hfair : arrival.Fair)
    (registry repo authorization : String) (tagNames : List String)
    (steps remain limit : Int) (hl : 1 ≤ limit)
    (hcalc : calculateBatchSteps tagNames.length limit = .ok (steps, remain))
    (dg : String → String)
    (hclean : ∀ t ∈ tagNames,
      fetchRepoDigest env registry repo t authorization = .ok (dg t, none)) :
    ∀ (n : Nat) (b : Int) (k : Nat) (tags : GoMap String),
      1 ≤ b → b + n = steps + 1 → (k : Int) = min ((b - 1) * limit) tagNames.length →
      (batchLoop env arrival registry repo authorization tagNames steps remain limit
          n b (k : Int) tags).2 =
        .returned (some fun x => if x ∈ tagNames.drop k then some (dg x) else tags x) none := by
  apply batchLoop_induction env arrival registry repo authorization tagNames steps remain limit
    hl hcalc (fun _ k tags out => out.2 =
      .returned (some fun x => if x ∈ tagNames.drop k then some (dg x) else tags x) none)
  · intro tags; simp
  · intro n b k s tags _ _ _ _ _ _ hks ih rl hrl
    have hle : k + s ≤ tagNames.length := by
      have : ((k + s : Nat) : Int) ≤ tagNames.length := by rw [hks]; exact min_le_right _ _
      exact_mod_cast this
    obtain ⟨hlen, hmem⟩ := fair_channel env arrival hfair registry repo authorization
      tagNames b k s hle
    have hall : ∀ x ∈ arrival b (((tagNames.drop k).take s).map
        fun t => goroutine env registry repo t authorization),
        ∃ r, x = .ok r ∧ r.Error = none ∧ r.RepoDigest = dg r.TagName := by
      intro x hx
      obtain ⟨t, ht, rfl⟩ := (hmem x).1 hx
      exact ⟨_, goroutine_ok _ _ _ _ _ _ _ (hclean t (mem_of_mem_slice _ _ _ _ ht)), rfl, rfl⟩
    obtain ⟨tags', h1, h2, h3⟩ := receiveLoop_clean b dg _ tags hall
    rw [hlen] at h1
    rw [← hrl] at h1
    simp only [h1, continueWith, ih tags']
    congr 2
    funext x
    by_cases hx : x ∈ tagNames.drop (k + s)
    · have : x ∈ tagNames.drop k := (mem_drop_split _ _ s _).2 (Or.inr hx)
      simp [hx, this]
    · by_cases hx' : x ∈ (tagNames.drop k).take s
      · have : x ∈ tagNames.drop k := (mem_drop_split _ _ s _).2 (Or.inl hx')
        have hin := (hmem (.ok { TagName := x, RepoDigest := dg x, Error := none })).2
          ⟨x, hx', goroutine_ok _ _ _ _ _ _ _ (hclean x (mem_of_mem_slice _ _ _ _ hx'))⟩
        simp only [hx, this, if_true, if_false]
        exact h2 _ hin
      · have : x ∉ tagNames.drop k := fun h =>
          ((mem_drop_split _ _ s _).1 h).elim hx' hx
        simp only [hx, this, if_false]
        apply h3
        intro r hr hk
        obtain ⟨t, ht, hg⟩ := (hmem _).1 hr
        have := (goroutine_inv _ _ _ _ _ _ hg).1
        rw [hk] at this
        exact hx' (this ▸ ht)

/-- When every fetch returns and one of the remaining tags has an error, the
batches return a nil map and the header-missing error. -/
theorem batchLoop_dirty (env : Env) (arrival : Arrival) (hfair : arrival.Fair)
    (registry repo authorization : String) (tagNames : List String)
    (steps remain limit : Int) (hl : 1 ≤ limit)
    (hcalc : calculateBatchSteps tagNames.length limit = .ok (steps, remain))
    (hret : ∀ t ∈ tagNames, ∃ d e,
      fetchRepoDigest env registry repo t authorization = .ok (d, e)) :
    ∀ (n : Nat) (b : Int) (k : Nat) (tags : GoMap String),
      1 ≤ b → b + n = steps + 1 → (k : Int) = min ((b - 1) * limit) tagNames.length →
      (∃ t ∈ tagNames.drop k, ∃ d e,
        fetchRepoDigest env registry repo t authorization = .ok (d, some e)) →
      (batchLoop env arrival registry repo authorization tagNames steps remain limit
          n b (k : Int) tags).2 =
        .returned none (some "header 'Docker-Content-Digest' not found in HTTP response") := by
  apply batchLoop_induction env arrival registry repo authorization tagNames steps remain limit
    hl hcalc (fun _ k _ out => (∃ t ∈ tagNames.drop k, ∃ d e,
        fetchRepoDigest env registry repo t authorization = .ok (d, some e)) → out.2 =
      .returned none (some "header 'Docker-Content-Digest' not found in HTTP response"))
  · intro tags h; simp at h
  · intro n b k s tags _ _ _ _ _ _ hks ih rl hrl hex
    have hle : k + s ≤ tagNames.length := by
      have : ((k + s : Nat) : Int) ≤ tagNames.length := by rw [hks]; exact min_le_right _ _
      exact_mod_cast this
    obtain ⟨hlen, hmem⟩ := fair_channel env arrival hfair registry repo authorization
      tagNames b k s hle
    by_cases hd : ∃ t ∈ (tagNames.drop k).take s, ∃ d e,
        fetchRepoDigest env registry repo t authorization = .ok (d, some e)
    · have hall : ∀ x ∈ arrival b (((tagNames.drop k).take s).map
          fun t => goroutine env registry repo t authorization),
          ∃ r, x = .ok r ∧ (r.Error = none ∨
            r.Error = some "header 'Docker-Content-Digest' not found in HTTP response") := by
        intro x hx
        obtain ⟨t, ht, rfl⟩ := (hmem x).1 hx
        obtain ⟨d, e, hde⟩ := hret t (mem_of_mem_slice _ _ _ _ ht)
        refine ⟨_, goroutine_ok _ _ _ _ _ _ _ hde, ?_⟩
        cases e with
        | none => left; rfl
        | some e => right; rw [(fetchRepoDigest_error _ _ _ _ _ _ _ hde).2.1]
      have hex' : ∃ r, .ok r ∈ arrival b (((tagNames.drop k).take s).map
          fun t => goroutine env registry repo t authorization) ∧
          r.Error = some "header 'Docker-Content-Digest' not found in HTTP response" := by
        obtain ⟨t, ht, d, e, hde⟩ := hd
        refine ⟨_, (hmem _).2 ⟨t, ht, goroutine_ok _ _ _ _ _ _ _ hde⟩, ?_⟩
        rw [(fetchRepoDigest_error _ _ _ _ _ _ _ hde).2.1]
      have h1 := receiveLoop_dirty b _ _ tags hall hex'
      rw [hlen, ← hrl] at h1
      simp only [h1, continueWith]
    · have hall : ∀ x ∈ arrival b (((tagNames.drop k).take s).map
          fun t => goroutine env registry repo t authorization),
          ∃ r, x = .ok r ∧ r.Error = none := by
        intro x hx
        obtain ⟨t, ht, rfl⟩ := (hmem x).1 hx
        obtain ⟨d, e, hde⟩ := hret t (mem_of_mem_slice _ _ _ _ ht)
        refine ⟨_, goroutine_ok _ _ _ _ _ _ _ hde, ?_⟩
        cases e with
        | none => rfl
        | some e => exact absurd ⟨t, ht, d, e, hde⟩ hd
      obtain ⟨tags', h1⟩ := receiveLoop_progress b _ tags hall
      rw [hlen, ← hrl] at h1
      simp only [h1, continueWith]
      apply ih tags'
      obtain ⟨t, ht, hde⟩ := hex
      rcases (mem_drop_split _ _ s _).1 ht with h | h
      · exact absurd ⟨t, h, hde⟩ hd
      · exact ⟨t, h, hde⟩

/-- An error returned by the batches is the error of one tag's fetch. -/
theorem batchLoop_error (env : Env) (arrival : Arrival) (hfair : arrival.Fair)
    (registry repo authorization : String) (tagNames : List String)
    (steps remain limit : Int) (hl : 1 ≤ limit)
    (hcalc : calculateBatchSteps tagNames.length limit = .ok (steps, remain)) :
    ∀ (n : Nat) (b : Int) (k : Nat) (tags : GoMap String),
      1 ≤ b → b + n = steps + 1 → (k : Int) = min ((b - 1) * limit) tagNames.length →
      ∀ m e, (batchLoop env arrival registry repo authorization tagNames steps remain limit
          n b (k : Int) tags).2 = .returned m (some e) →
        m = none ∧ ∃ t ∈ tagNames,
          fetchRepoDigest env registry repo t authorization = .ok ("", some e) := by
  apply batchLoop_induction env arrival registry repo authorization tagNames steps remain limit
    hl hcalc (fun _ _ _ out => ∀ m e, out.2 = .returned m (some e) →
        m = none ∧ ∃ t ∈ tagNames,
          fetchRepoDigest env registry repo t authorization = .ok ("", some e))
  · intro tags m e h; simp at h
  · intro n b k s tags _ _ _ _ _ _ hks ih rl hrl m e h
    have hle : k + s ≤ tagNames.length := by
      have : ((k + s : Nat) : Int) ≤ tagNames.length := by rw [hks]; exact min_le_right _ _
      exact_mod_cast this
    obtain ⟨hlen, hmem⟩ := fair_channel env arrival hfair registry repo authorization
      tagNames b k s hle
    cases hc : rl.2 with
    | done tags' =>
      rw [hc] at h
      exact ih tags' m e h
    | abort err =>
      rw [hc] at h
      simp only [continueWith, Outcome.returned.injEq, Option.some.injEq] at h
      obtain ⟨hm, he⟩ := h
      subst he
      rw [hrl] at hc
      obtain ⟨r, hr, hre⟩ := receiveLoop_abort b _ _ _ _ hc
      obtain ⟨t, ht, hg⟩ := (hmem _).1 hr
      have h2 := (goroutine_inv _ _ _ _ _ _ hg).2
      rw [hre] at h2
      have h3 := (fetchRepoDigest_error _ _ _ _ _ _ _ h2).1
      rw [h3] at h2
      exact ⟨hm.symm, t, mem_of_mem_slice _ _ _ _ ht, h2⟩
    | crashed p => rw [hc] at h; simp [continueWith] at h
    | blocked => rw [hc] at h; simp [continueWith] at h

theorem validateConcurrency_valid (c : Int) (h1 : 1 ≤ c) (h2 : c ≤ 128) :
    validateConcurrency c = (c, none) := by
  unfold validateConcurrency
  simp only
  rw [if_neg (by omega), if_neg (by omega)]

/-- A call with a valid concurrency whose listing succeeds runs the batch loop
from batch 1, index 0 and an empty map. -/
theorem FetchTags_valid (env : Env) (arrival : Arrival) (registry repo authorization : String)
    (c : Int) (h1 : 1 ≤ c) (h2 : c ≤ 128) (tagNames : List String)
    (hlist : fetchTagNames env registry repo authorization = .ok tagNames) :
    ∃ steps remain, calculateBatchSteps tagNames.length c = .ok (steps, remain) ∧
      (1 : Int) + steps.toNat = steps + 1 ∧
      ((0 : Nat) : Int) = min ((1 - 1) * c) tagNames.length ∧
      FetchTags env arrival registry repo authorization c =
        (Event.listRequest ("https://" ++ registry ++ "/v2/" ++ repo ++ "/tags/list") ::
          (batchLoop env arrival registry repo authorization tagNames steps remain c
            steps.toNat 1 ((0 : Nat) : Int) GoMap.empty).1,
         (batchLoop env arrival registry repo authorization tagNames steps remain c
            steps.toNat 1 ((0 : Nat) : Int) GoMap.empty).2) := by
  have hc : (0 : Int) ≤ tagNames.length := Int.natCast_nonneg _
  have hcalc := calculateBatchSteps_eq tagNames.length c h1 hc
  have hr := calculateBatchSteps_range _ _ _ _ h1 hc hcalc
  refine ⟨_, _, hcalc, by omega, by simp, ?_⟩
  simp only [FetchTags, validateConcurrency_valid c h1 h2, hlist, fetchBatches, hcalc]
  rfl

/-- A run in which every fetch returns a nil error returns the map from each
listed tag to its digest. -/
theorem FetchTags_clean (env : Env) (arrival : Arrival) (registry repo authorization : String)
    (c : Int) (tagNames : List String) (dg : String → String)
    (hfair : arrival.Fair) (h1 : 1 ≤ c) (h2 : c ≤ 128)
    (hlist : fetchTagNames env registry repo authorization = .ok tagNames)
    (hall : ∀ t ∈ tagNames,
      fetchRepoDigest env registry repo t authorization = .ok (dg t, none)) :
    ∃ m, (FetchTags env arrival registry repo authorization c).2 = .returned (some m) none ∧
      (∀ t, (m t).isSome ↔ t ∈ tagNames) ∧ ∀ t ∈ tagNames, m t = some (dg t) := by
  obtain ⟨steps, remain, hcalc, e1, e2, hF⟩ :=
    FetchTags_valid env arrival registry repo authorization c h1 h2 tagNames hlist
  have := batchLoop_clean env arrival hfair registry repo authorization tagNames steps remain c
    h1 hcalc dg hall steps.toNat 1 0 GoMap.empty (le_refl _) e1 e2
  rw [hF]
  refine ⟨_, this, ?_, ?_⟩
  · intro t
    by_cases ht : t ∈ tagNames <;> simp [ht, GoMap.empty]
  · intro t ht
    simp [ht]

/-- C2: with a concurrency in [1,128], when every digest fetch returns a
digest and a nil error, `FetchTags` returns a nil error and a map whose keys
are exactly the listed tag names, each mapped to the digest fetched for it. -/
theorem fetch_all_succeed (env : Env) (arrival : Arrival) (registry repo authorization : String)
    (c : Int) (tagNames : List String) (dg : String → String)
    (hfair : arrival.Fair) (h1 : 1 ≤ c) (h2 : c ≤ 128)
    (hlist : fetchTagNames env registry repo authorization = .ok tagNames)
    (hall : ∀ t ∈ tagNames,
      fetchRepoDigest env registry repo t authorization = .ok (dg t, none)) :
    ∃ m, (FetchTags env arrival registry repo authorization c).2 = .returned (some m) none ∧
      (∀ t, (m t).isSome ↔ t ∈ tagNames) ∧ ∀ t ∈ tagNames, m t = some (dg t) :=
  FetchTags_clean env arrival registry repo authorization c tagNames dg hfair h1 h2 hlist hall

/-- Witness of `fetch_all_succeed`: tags v1..v5 with concurrency 2, digests
d1..d5, the results of each batch arriving in reverse order. -/
theorem fetch_all_succeed_witness :
    ∃ m, (FetchTags (stubEnv "r" "p" ["v1", "v2", "v3", "v4", "v5"]
        fun t => .ok (digestResponseOk (demoDigest t))) reversed "r" "p" "auth" 2).2 =
          .returned (some m) none ∧
      (∀ t, (m t).isSome ↔ t ∈ ["v1", "v2", "v3", "v4", "v5"]) ∧
      ∀ t ∈ ["v1", "v2", "v3", "v4", "v5"], m t = some (demoDigest t) :=
  fetch_all_succeed _ reversed "r" "p" "auth" 2 ["v1", "v2", "v3", "v4", "v5"] demoDigest
    (fun _ l => List.reverse_perm l) (by decide) (by decide) (by decide) (by decide)

/-- C3: with a concurrency in [1,128], when one tag's fetch returns the
header-missing error and every other fetch returns a nil error, `FetchTags`
returns a nil map and that error, in whichever batch the failing tag falls. -/
theorem fetch_one_missing (env : Env) (arrival : Arrival) (registry repo authorization : String)
    (c : Int) (tagNames : List String) (t d e : String)
    (hfair : arrival.Fair) (h1 : 1 ≤ c) (h2 : c ≤ 128)
    (hlist : fetchTagNames env registry repo authorization = .ok tagNames)
    (ht : t ∈ tagNames)
    (hmiss : fetchRepoDigest env registry repo t authorization = .ok (d, some e))
    (hrest : ∀ t' ∈ tagNames, t' ≠ t →
      ∃ d', fetchRepoDigest env registry repo t' authorization = .ok (d', none)) :
    (FetchTags env arrival registry repo authorization c).2 = .returned none (some e) := by
  obtain ⟨steps, remain, hcalc, e1, e2, hF⟩ :=
    FetchTags_valid env arrival registry repo authorization c h1 h2 tagNames hlist
  have hret : ∀ t' ∈ tagNames, ∃ d' e',
      fetchRepoDigest env registry repo t' authorization = .ok (d', e') := by
    intro t' ht'
    by_cases h : t' = t
    · subst h; exact ⟨d, some e, hmiss⟩
    · obtain ⟨d', hd'⟩ := hrest t' ht' h
      exact ⟨d', none, hd'⟩
  have := batchLoop_dirty env arrival hfair registry repo authorization tagNames steps remain c
    h1 hcalc hret steps.toNat 1 0 GoMap.empty (le_refl _) e1 e2
    ⟨t, by simpa using ht, d, e, hmiss⟩
  rw [hF, this, (fetchRepoDigest_error _ _ _ _ _ _ _ hmiss).2.1]

/-- Witness of `fetch_one_missing`: tags a, b, c with concurrency 1, the
response for b lacking the header. -/
theorem fetch_one_missing_witness :
    (FetchTags (stubEnv "r" "p" ["a", "b", "c"] fun t =>
        if t = "b" then .ok bareResponse else .ok (digestResponseOk (demoDigest t)))
      inOrder "r" "p" "auth" 1).2 =
      .returned none (some "header 'Docker-Content-Digest' not found in HTTP response") :=
  fetch_one_missing _ inOrder "r" "p" "auth" 1 ["a", "b", "c"] "b" ""
    "header 'Docker-Content-Digest' not found in HTTP response"
    (fun _ l => List.Perm.refl l) (by decide) (by decide) (by decide) (by decide) (by decide)
    (by
      intro t' ht' hne
      simp only [List.mem_cons, List.mem_singleton, List.not_mem_nil, or_false] at ht'
      rcases ht' with rfl | rfl | rfl
      · exact ⟨"da", by decide⟩
      · exact absurd rfl hne
      · exact ⟨"dc", by decide⟩)

/-- C4: `validateConcurrency` returns an error exactly when the concurrency is
below 1 or above 128 and otherwise returns it unchanged with a nil error; a
`FetchTags` call with a concurrency outside [1,128] returns a nil map and the
validation error, and its trace is empty: no listing request, no launch. -/
theorem invalid_concurrency_rejected (c : Int) :
    ((validateConcurrency c).2 ≠ none ↔ (c < 1 ∨ c > 128)) ∧
    (¬ (c < 1 ∨ c > 128) → validateConcurrency c = (c, none)) ∧
    ((c < 1 ∨ c > 128) → ∀ (env : Env) (arrival : Arrival) (registry repo authorization : String),
      ∃ err, (validateConcurrency c).2 = some err ∧
        FetchTags env arrival registry repo authorization c =
          ([], .returned none (some err))) := by
  refine ⟨?_, ?_, ?_⟩
  · unfold validateConcurrency
    simp only
    split
    · simp; left; assumption
    · split
      · simp; right; assumption
      · simp; omega
  · intro h
    exact validateConcurrency_valid c (by omega) (by omega)
  · intro h env arrival registry repo authorization
    have : ∃ err, validateConcurrency c = (0, some err) := by
      unfold validateConcurrency
      simp only
      split
      · exact ⟨_, rfl⟩
      · rw [if_pos (by omega)]
        exact ⟨_, rfl⟩
    obtain ⟨err, herr⟩ := this
    exact ⟨err, by rw [herr], by simp [FetchTags, herr]⟩

/-- Witness of `invalid_concurrency_rejected`: concurrency 129. -/
theorem invalid_concurrency_rejected_witness :
    (validateConcurrency 129).2 = some "Concurrency could not be higher than 128" ∧
    ∃ err, (validateConcurrency 129).2 = some err ∧
      FetchTags (stubEnv "r" "p" ["a", "b"] fun t => .ok (digestResponseOk (demoDigest t)))
        inOrder "r" "p" "auth" 129 = ([], .returned none (some err)) :=
  ⟨by decide, (invalid_concurrency_rejected 129).2.2 (by decide) _ inOrder "r" "p" "auth"⟩

/-- Counterexample to C5 as stated: the registry lists no tag, the call passes concurrency 0,
and `FetchTags` returns a nil map and the validation error, without listing. -/
theorem empty_list_concurrency_zero :
    fetchTagNames (stubEnv "r" "p" [] fun _ => .ok bareResponse) "r" "p" "auth" = .ok [] ∧
    FetchTags (stubEnv "r" "p" [] fun _ => .ok bareResponse) inOrder "r" "p" "auth" 0 =
      ([], .returned none (some "Concurrency could not be lower than 1")) ∧
    ¬ ∃ m, (FetchTags (stubEnv "r" "p" [] fun _ => .ok bareResponse) inOrder "r" "p" "auth" 0).2 =
      .returned (some m) none := by
  have h : FetchTags (stubEnv "r" "p" [] fun _ => .ok bareResponse) inOrder "r" "p" "auth" 0 =
      ([], .returned none (some "Concurrency could not be lower than 1")) := by
    have hv : validateConcurrency 0 = (0, some "Concurrency could not be lower than 1") := by
      decide
    simp [FetchTags, hv]
  refine ⟨by decide, h, ?_⟩
  rintro ⟨m, hm⟩
  rw [h] at hm
  cases hm

/-- C5, amended: for every concurrency in [1,128], when the listed tag-name
sequence is empty, `FetchTags` makes the listing request and nothing else (no
batch, no launch) and returns an empty, non-nil map and a nil error. -/
theorem empty_list_empty_map (env : Env) (arrival : Arrival)
    (registry repo authorization : String) (c : Int) (h1 : 1 ≤ c) (h2 : c ≤ 128)
    (hlist : fetchTagNames env registry repo authorization = .ok []) :
    FetchTags env arrival registry repo authorization c =
      ([Event.listRequest ("https://" ++ registry ++ "/v2/" ++ repo ++ "/tags/list")],
        .returned (some GoMap.empty) none) := by
  have hcalc : calculateBatchSteps (([] : List String).length : Int) c = .ok (0, 0) := by
    have := calculateBatchSteps_eq 0 c h1 (le_refl _)
    simpa using this
  simp only [FetchTags, validateConcurrency_valid c h1 h2, hlist, fetchBatches, hcalc]
  rfl

/-- Witness of `empty_list_empty_map`: no tags, concurrency 7. -/
theorem empty_list_empty_map_witness :
    FetchTags (stubEnv "r" "p" [] fun _ => .ok bareResponse) reversed "r" "p" "auth" 7 =
      ([Event.listRequest "https://r/v2/p/tags/list"], .returned (some GoMap.empty) none) :=
  empty_list_empty_map _ reversed "r" "p" "auth" 7 (by decide) (by decide) (by decide)

theorem digestOf_eq (env : Env) (registry repo authorization t d : String) (e : Option String)
    (h : fetchRepoDigest env registry repo t authorization = .ok (d, e)) :
    digestOf env registry repo authorization t = d := by
  simp [digestOf, h]

/-- C7: a manifest request that fails, by a transport error or by a status
other than 200, with error text `e` makes `fetchRepoDigest` return `"[" + e + "]"`
with a nil error; and with a concurrency in [1,128], a run in which every
fetch returns a nil error returns a nil error and a map with an entry for
every listed tag, each tag whose request failed being mapped to its bracketed
failure text. -/
theorem transport_failure_embedded (env : Env) (registry repo authorization : String) :
    (∀ url e, env.roundTrip url authorization = .error e →
      httpRequest env url authorization = .error e) ∧
    (∀ url resp, env.roundTrip url authorization = .ok resp → resp.StatusCode ≠ 200 →
      httpRequest env url authorization =
        .error ("Bad response status: " ++ resp.Status ++ " >> " ++ url)) ∧
    (∀ t e, httpRequest env ("https://" ++ registry ++ "/v2/" ++ repo ++ "/manifests/" ++ t)
        authorization = .error e →
      fetchRepoDigest env registry repo t authorization = .ok ("[" ++ e ++ "]", none)) ∧
    (∀ (arrival : Arrival) (c : Int) (tagNames : List String),
      arrival.Fair → 1 ≤ c → c ≤ 128 →
      fetchTagNames env registry repo authorization = .ok tagNames →
      (∀ t ∈ tagNames, ∃ d, fetchRepoDigest env registry repo t authorization = .ok (d, none)) →
      ∃ m, (FetchTags env arrival registry repo authorization c).2 = .returned (some m) none ∧
        (∀ t, (m t).isSome ↔ t ∈ tagNames) ∧
        ∀ t ∈ tagNames, ∀ e,
          httpRequest env ("https://" ++ registry ++ "/v2/" ++ repo ++ "/manifests/" ++ t)
            authorization = .error e → m t = some ("[" ++ e ++ "]")) := by
  have h3 : ∀ t e, httpRequest env ("https://" ++ registry ++ "/v2/" ++ repo ++ "/manifests/" ++ t)
        authorization = .error e →
      fetchRepoDigest env registry repo t authorization = .ok ("[" ++ e ++ "]", none) := by
    intro t e h
    simp [fetchRepoDigest, h]
  refine ⟨?_, ?_, h3, ?_⟩
  · intro url e h
    simp [httpRequest, h]
  · intro url resp h hs
    simp [httpRequest, h, hs]
  · intro arrival c tagNames hfair h1 h2 hlist hnil
    have hall : ∀ t ∈ tagNames, fetchRepoDigest env registry repo t authorization =
        .ok (digestOf env registry repo authorization t, none) := by
      intro t ht
      obtain ⟨d, hd⟩ := hnil t ht
      rw [digestOf_eq _ _ _ _ _ _ _ hd, hd]
    obtain ⟨m, hm, hk, hv⟩ := FetchTags_clean env arrival registry repo authorization c
      tagNames _ hfair h1 h2 hlist hall
    refine ⟨m, hm, hk, ?_⟩
    intro t ht e he
    rw [hv t ht, digestOf_eq _ _ _ _ _ _ _ (h3 t e he)]


/-- Witness of `transport_failure_embedded`: tags a, b, c with concurrency 2,
the connection for b being refused. -/
theorem transport_failure_embedded_witness :
    ∃ m, (FetchTags (stubEnv "r" "p" ["a", "b", "c"] fun t =>
          if t = "b" then .error "connection refused"
          else .ok (digestResponseOk (demoDigest t)))
        inOrder "r" "p" "auth" 2).2 = .returned (some m) none ∧
      m "b" = some "[connection refused]" := by
  obtain ⟨m, h1, _, h3⟩ := (transport_failure_embedded (stubEnv "r" "p" ["a", "b", "c"] fun t =>
      if t = "b" then .error "connection refused"
      else .ok (digestResponseOk (demoDigest t))) "r" "p" "auth").2.2.2
    inOrder 2 ["a", "b", "c"] (fun _ l => List.Perm.refl l) (by decide) (by decide) (by decide)
    (by
      intro t ht
      simp only [List.mem_cons, List.mem_singleton, List.not_mem_nil, or_false] at ht
      rcases ht with rfl | rfl | rfl
      · exact ⟨"da", by decide⟩
      · exact ⟨"[connection refused]", by decide⟩
      · exact ⟨"dc", by decide⟩)
  exact ⟨m, h1, h3 "b" (by decide) "connection refused" rfl⟩

/-- The error a run returns after validation and listing comes from a tag
whose 200 response lacks the digest header. -/
theorem FetchTags_error_source (env : Env) (arrival : Arrival)
    (registry repo authorization : String) (c : Int) (tagNames : List String)
    (hfair : arrival.Fair) (h1 : 1 ≤ c) (h2 : c ≤ 128)
    (hlist : fetchTagNames env registry repo authorization = .ok tagNames)
    (m : Option (GoMap String)) (e : String)
    (h : (FetchTags env arrival registry repo authorization c).2 = .returned m (some e)) :
    m = none ∧ ∃ t ∈ tagNames,
      fetchRepoDigest env registry repo t authorization = .ok ("", some e) := by
  obtain ⟨steps, remain, hcalc, e1, e2, hF⟩ :=
    FetchTags_valid env arrival registry repo authorization c h1 h2 tagNames hlist
  rw [hF] at h
  exact batchLoop_error env arrival hfair registry repo authorization tagNames steps remain c
    h1 hcalc steps.toNat 1 0 GoMap.empty (le_refl _) e1 e2 m e h

/-- C8: for a manifest response with status 200, `fetchRepoDigest` returns the
empty string and a non-nil error when the response has no
`Docker-Content-Digest` header entry, and the entry's first value with a nil
error when the entry is present; and when `FetchTags`, after validation and
listing succeeded, returns an error, some listed tag had a 200 response
without that header entry. -/
theorem digest_header_contract (env : Env) (registry repo authorization : String) :
    (∀ t resp, env.roundTrip ("https://" ++ registry ++ "/v2/" ++ repo ++ "/manifests/" ++ t)
        authorization = .ok resp → resp.StatusCode = 200 →
      (resp.Header "Docker-Content-Digest" = none →
        ∃ e, fetchRepoDigest env registry repo t authorization = .ok ("", some e)) ∧
      (∀ v vs, resp.Header "Docker-Content-Digest" = some (v :: vs) →
        fetchRepoDigest env registry repo t authorization = .ok (v, none))) ∧
    (∀ (arrival : Arrival) (c : Int) (tagNames : List String) (m : Option (GoMap String))
        (e : String),
      arrival.Fair → 1 ≤ c → c ≤ 128 →
      fetchTagNames env registry repo authorization = .ok tagNames →
      (FetchTags env arrival registry repo authorization c).2 = .returned m (some e) →
      ∃ t ∈ tagNames, ∃ resp,
        env.roundTrip ("https://" ++ registry ++ "/v2/" ++ repo ++ "/manifests/" ++ t)
          authorization = .ok resp ∧ resp.StatusCode = 200 ∧
        resp.Header "Docker-Content-Digest" = none) := by
  constructor
  · intro t resp hr hs
    have hreq : httpRequest env ("https://" ++ registry ++ "/v2/" ++ repo ++ "/manifests/" ++ t)
        authorization = .ok resp := by
      simp [httpRequest, hr, hs]
    constructor
    · intro hh
      exact ⟨"header 'Docker-Content-Digest' not found in HTTP response",
        by simp [fetchRepoDigest, hreq, hh]⟩
    · intro v vs hh
      simp [fetchRepoDigest, hreq, hh, sliceIndex]
  · intro arrival c tagNames m e hfair h1 h2 hlist h
    obtain ⟨_, t, ht, hf⟩ := FetchTags_error_source env arrival registry repo authorization c
      tagNames hfair h1 h2 hlist m e h
    obtain ⟨_, _, resp, hreq, hh⟩ := fetchRepoDigest_error _ _ _ _ _ _ _ hf
    refine ⟨t, ht, resp, ?_, ?_, hh⟩
    · unfold httpRequest at hreq
      split at hreq
      · cases hreq
      · next r hr =>
        split at hreq
        · cases hreq
        · injection hreq with hreq
          rw [← hreq]; exact hr
    · unfold httpRequest at hreq
      split at hreq
      · cases hreq
      · next r hr =>
        split at hreq
        · cases hreq
        · next hs =>
          injection hreq with hreq
          rw [← hreq]
          exact not_not.1 hs

/-- Witness of `digest_header_contract`: the run over a, b, c with concurrency 1
in which the response for b lacks the header returns an error, and b is a
listed tag with such a response. -/
theorem digest_header_contract_witness :
    ∃ t ∈ ["a", "b", "c"], ∃ resp,
      (stubEnv "r" "p" ["a", "b", "c"] fun t =>
          if t = "b" then .ok bareResponse else .ok (digestResponseOk (demoDigest t))).roundTrip
        ("https://" ++ "r" ++ "/v2/" ++ "p" ++ "/manifests/" ++ t) "auth" = .ok resp ∧
      resp.StatusCode = 200 ∧ resp.Header "Docker-Content-Digest" = none :=
  (digest_header_contract (stubEnv "r" "p" ["a", "b", "c"] fun t =>
      if t = "b" then .ok bareResponse else .ok (digestResponseOk (demoDigest t)))
    "r" "p" "auth").2 inOrder 1 ["a", "b", "c"] none
    "header 'Docker-Content-Digest' not found in HTTP response"
    (fun _ l => List.Perm.refl l) (by decide) (by decide) (by decide)
    (by
      have hv : validateConcurrency 1 = (1, none) := by decide
      have hl : fetchTagNames (stubEnv "r" "p" ["a", "b", "c"] fun t =>
          if t = "b" then .ok bareResponse else .ok (digestResponseOk (demoDigest t)))
          "r" "p" "auth" = .ok ["a", "b", "c"] := by decide
      simp only [FetchTags, hv, hl, fetchBatches]
      rfl)

/-- C10: for a fixed listing, a concurrency in [1,128] and fetches that each
return an outcome, two runs return the same map and the same error, whatever
order the results of each batch arrive in. -/
theorem arrival_order_irrelevant (env : Env) (arrival₁ arrival₂ : Arrival)
    (registry repo authorization : String) (c : Int) (tagNames : List String)
    (hfair₁ : arrival₁.Fair) (hfair₂ : arrival₂.Fair) (h1 : 1 ≤ c) (h2 : c ≤ 128)
    (hlist : fetchTagNames env registry repo authorization = .ok tagNames)
    (hret : ∀ t ∈ tagNames, ∃ d e,
      fetchRepoDigest env registry repo t authorization = .ok (d, e)) :
    (FetchTags env arrival₁ registry repo authorization c).2 =
      (FetchTags env arrival₂ registry repo authorization c).2 := by
  obtain ⟨steps, remain, hcalc, e1, e2, hF₁⟩ :=
    FetchTags_valid env arrival₁ registry repo authorization c h1 h2 tagNames hlist
  obtain ⟨steps', remain', hcalc', _, _, hF₂⟩ :=
    FetchTags_valid env arrival₂ registry repo authorization c h1 h2 tagNames hlist
  rw [hcalc] at hcalc'
  injection hcalc' with hcalc'
  injection hcalc' with hs hr
  subst hs hr
  rw [hF₁, hF₂]
  by_cases hd : ∃ t ∈ tagNames, ∃ d e,
      fetchRepoDigest env registry repo t authorization = .ok (d, some e)
  · have hd' : ∃ t ∈ tagNames.drop 0, ∃ d e,
        fetchRepoDigest env registry repo t authorization = .ok (d, some e) := by simpa using hd
    rw [batchLoop_dirty env arrival₁ hfair₁ registry repo authorization tagNames steps remain c
        h1 hcalc hret steps.toNat 1 0 GoMap.empty (le_refl _) e1 e2 hd',
      batchLoop_dirty env arrival₂ hfair₂ registry repo authorization tagNames steps remain c
        h1 hcalc hret steps.toNat 1 0 GoMap.empty (le_refl _) e1 e2 hd']
  · have hall : ∀ t ∈ tagNames, fetchRepoDigest env registry repo t authorization =
        .ok (digestOf env registry repo authorization t, none) := by
      intro t ht
      obtain ⟨d, e, hde⟩ := hret t ht
      cases e with
      | none => rw [digestOf_eq _ _ _ _ _ _ _ hde, hde]
      | some e => exact absurd ⟨t, ht, d, e, hde⟩ hd
    rw [batchLoop_clean env arrival₁ hfair₁ registry repo authorization tagNames steps remain c
        h1 hcalc _ hall steps.toNat 1 0 GoMap.empty (le_refl _) e1 e2,
      batchLoop_clean env arrival₂ hfair₂ registry repo authorization tagNames steps remain c
        h1 hcalc _ hall steps.toNat 1 0 GoMap.empty (le_refl _) e1 e2]

/-- Witness of `arrival_order_irrelevant`: tags a, b, c with concurrency 2,
results arriving in launch order and in reverse. -/
theorem arrival_order_irrelevant_witness :
    (FetchTags (stubEnv "r" "p" ["a", "b", "c"] fun t => .ok (digestResponseOk (demoDigest t)))
        inOrder "r" "p" "auth" 2).2 =
      (FetchTags (stubEnv "r" "p" ["a", "b", "c"] fun t => .ok (digestResponseOk (demoDigest t)))
        reversed "r" "p" "auth" 2).2 :=
  arrival_order_irrelevant _ inOrder reversed "r" "p" "auth" 2 ["a", "b", "c"]
    (fun _ l => List.Perm.refl l) (fun _ l => List.reverse_perm l) (by decide) (by decide)
    (by decide)
    (by
      intro t ht
      simp only [List.mem_cons, List.mem_singleton, List.not_mem_nil, or_false] at ht
      rcases ht with rfl | rfl | rfl
      · exact ⟨"da", none, by decide⟩
      · exact ⟨"db", none, by decide⟩
      · exact ⟨"dc", none, by decide⟩)

/-! ## Counting events -/

theorem launched_append (p q : List Event) : launched (p ++ q) = launched p + launched q := by
  simp [launched, List.countP_append]

theorem collected_append (p q : List Event) :
    collected (p ++ q) = collected p + collected q := by
  simp [collected, List.countP_append]

theorem launchedIn_append (b : Int) (p q : List Event) :
    launchedIn b (p ++ q) = launchedIn b p + launchedIn b q := by
  simp [launchedIn, List.countP_append]

theorem collectedIn_append (b : Int) (p q : List Event) :
    collectedIn b (p ++ q) = collectedIn b p + collectedIn b q := by
  simp [collectedIn, List.countP_append]

theorem launchesOf_append (b : Int) (p q : List Event) :
    launchesOf b (p ++ q) = launchesOf b p ++ launchesOf b q := by
  simp [launchesOf, List.filterMap_append]

theorem launchedIndices_append (p q : List Event) :
    launchedIndices (p ++ q) = launchedIndices p ++ launchedIndices q := by
  simp [launchedIndices, List.filterMap_append]

theorem launchEvents_counts (b : Int) :
    ∀ (names : List String) (ti : Int),
      launched (launchEvents b ti names) = names.length ∧
      collected (launchEvents b ti names) = 0 ∧
      (∀ b', launchedIn b' (launchEvents b ti names) = if b' = b then names.length else 0) ∧
      (∀ b', collectedIn b' (launchEvents b ti names) = 0) ∧
      (∀ b', launchesOf b' (launchEvents b ti names) = if b' = b then indexed ti names else []) ∧
      launchedIndices (launchEvents b ti names) = (indexed ti names).map Prod.fst ∧
      (∀ e ∈ launchEvents b ti names, batchOf e = some b) ∧
      (∀ b' cap, Event.makeChan b' cap ∉ launchEvents b ti names) := by
  intro names
  induction names with
  | nil =>
    intro ti
    simp [launchEvents, launched, collected, launchedIn, collectedIn, launchesOf,
      launchedIndices, indexed]
  | cons t ts ih =>
    intro ti
    obtain ⟨h1, h2, h3, h4, h5, h6, h7, h8⟩ := ih (ti + 1)
    refine ⟨?_, ?_, ?_, ?_, ?_, ?_, ?_, ?_⟩
    · simp only [launchEvents, launched, List.countP_cons] at h1 ⊢
      simp [h1]
    · simp only [launchEvents, collected, List.countP_cons] at h2 ⊢
      simp [h2]
    · intro b'
      have := h3 b'
      simp only [launchEvents, launchedIn, List.countP_cons] at this ⊢
      rw [this]
      by_cases hb : b' = b
      · simp [hb]
      · have hb' : ¬ b = b' := fun h => hb h.symm
        simp [hb, hb']
    · intro b'
      have := h4 b'
      simp only [launchEvents, collectedIn, List.countP_cons] at this ⊢
      simp [this]
    · intro b'
      have := h5 b'
      simp only [launchEvents, launchesOf, List.filterMap_cons] at this ⊢
      by_cases hb : b' = b
      · have hb' : b = b' := hb.symm
        simp only [hb', if_true] at this ⊢
        simp [indexed, this]
      · have hb' : ¬ b = b' := fun h => hb h.symm
        simp only [hb, hb', if_false] at this ⊢
        exact this
    · simp only [launchEvents, launchedIndices, List.filterMap_cons, indexed, List.map_cons]
        at h6 ⊢
      rw [h6]
    · intro e he
      simp only [launchEvents, List.mem_cons] at he
      rcases he with rfl | he
      · rfl
      · exact h7 e he
    · intro b' cap h
      simp only [launchEvents, List.mem_cons] at h
      rcases h with h | h
      · cases h
      · exact h8 b' cap h

theorem receives_counts (b : Int) (rs : List digestResponse) :
    launched (rs.map (Event.receive b)) = 0 ∧
    collected (rs.map (Event.receive b)) = rs.length ∧
    (∀ b', launchedIn b' (rs.map (Event.receive b)) = 0) ∧
    (∀ b', collectedIn b' (rs.map (Event.receive b)) = if b' = b then rs.length else 0) ∧
    (∀ b', launchesOf b' (rs.map (Event.receive b)) = []) ∧
    launchedIndices (rs.map (Event.receive b)) = [] ∧
    (∀ e ∈ rs.map (Event.receive b), batchOf e = some b) ∧
    (∀ b' cap, Event.makeChan b' cap ∉ rs.map (Event.receive b)) ∧
    (∀ b' i t, Event.launch b' i t ∉ rs.map (Event.receive b)) := by
  induction rs with
  | nil => simp [launched, collected, launchedIn, collectedIn, launchesOf, launchedIndices]
  | cons r rs ih =>
    obtain ⟨h1, h2, h3, h4, h5, h6, h7, h8, h9⟩ := ih
    refine ⟨?_, ?_, ?_, ?_, ?_, ?_, ?_, ?_, ?_⟩
    · simp only [List.map_cons, launched, List.countP_cons] at h1 ⊢
      simp [h1]
    · simp only [List.map_cons, collected, List.countP_cons] at h2 ⊢
      simp [h2]
    · intro b'
      have := h3 b'
      simp only [List.map_cons, launchedIn, List.countP_cons] at this ⊢
      simp [this]
    · intro b'
      have := h4 b'
      simp only [List.map_cons, collectedIn, List.countP_cons] at this ⊢
      rw [this]
      by_cases hb : b' = b
      · simp [hb]
      · have hb' : ¬ b = b' := fun h => hb h.symm
        simp [hb, hb']
    · intro b'
      have := h5 b'
      simp only [List.map_cons, launchesOf, List.filterMap_cons] at this ⊢
      exact this
    · simp only [List.map_cons, launchedIndices, List.filterMap_cons] at h6 ⊢
      exact h6
    · intro e he
      simp only [List.map_cons, List.mem_cons] at he
      rcases he with rfl | he
      · rfl
      · exact h7 e he
    · intro b' cap h
      simp only [List.map_cons, List.mem_cons] at h
      rcases h with h | h
      · cases h
      · exact h8 b' cap h
    · intro b' i t h
      simp only [List.map_cons, List.mem_cons] at h
      rcases h with h | h
      · cases h
      · exact h9 b' i t h

/-- Events of a run from batch `b` on belong to batches `b` and later. -/
theorem batchLoop_batches (env : Env) (arrival : Arrival)
    (registry repo authorization : String) (tagNames : List String)
    (steps remain limit : Int) (hl : 1 ≤ limit)
    (hcalc : calculateBatchSteps tagNames.length limit = .ok (steps, remain)) :
    ∀ (n : Nat) (b : Int) (k : Nat) (tags : GoMap String),
      1 ≤ b → b + n = steps + 1 → (k : Int) = min ((b - 1) * limit) tagNames.length →
      ∀ e ∈ (batchLoop env arrival registry repo authorization tagNames steps remain limit
          n b (k : Int) tags).1, ∀ b', batchOf e = some b' → b ≤ b' := by
  apply batchLoop_induction env arrival registry repo authorization tagNames steps remain limit
    hl hcalc (fun b _ _ out => ∀ e ∈ out.1, ∀ b', batchOf e = some b' → b ≤ b')
  · intro tags e he; simp at he
  · intro n b k s tags _ _ _ _ _ _ _ ih rl hrl e he b' hb'
    obtain ⟨rs, hrs, _, _⟩ := receiveLoop_trace b s (arrival b (((tagNames.drop k).take s).map
      fun t => goroutine env registry repo t authorization)) tags
    rw [← hrl] at hrs
    simp only [List.mem_cons, List.mem_append] at he
    rcases he with rfl | (he | he) | he
    · simp only [batchOf, Option.some.injEq] at hb'; omega
    · have := (launchEvents_counts b _ _).2.2.2.2.2.2.1 e he
      rw [this] at hb'; injection hb' with hb'; omega
    · rw [hrs] at he
      have := (receives_counts b rs).2.2.2.2.2.2.1 e he
      rw [this] at hb'; injection hb' with hb'; omega
    · cases hc : rl.2 with
      | done tags' =>
        rw [hc] at he
        have := ih tags' e he b' hb'
        omega
      | abort err => rw [hc] at he; simp [continueWith] at he
      | crashed p => rw [hc] at he; simp [continueWith] at he
      | blocked => rw [hc] at he; simp [continueWith] at he

/-- A trace without events of batch `b` has no launch or receive of batch `b`. -/
theorem no_batch_counts (b : Int) :
    ∀ tr : List Event, (∀ e ∈ tr, batchOf e ≠ some b) →
      launchedIn b tr = 0 ∧ collectedIn b tr = 0 ∧ launchesOf b tr = [] ∧
      ∀ cap, Event.makeChan b cap ∉ tr := by
  intro tr
  induction tr with
  | nil => intro _; simp [launchedIn, collectedIn, launchesOf]
  | cons e tr ih =>
    intro h
    obtain ⟨h1, h2, h3, h4⟩ := ih (fun e' he' => h e' (by simp [he']))
    have he := h e (by simp)
    refine ⟨?_, ?_, ?_, ?_⟩
    · simp only [launchedIn, List.countP_cons] at h1 ⊢
      rw [h1]
      cases e <;> simp_all [batchOf]
    · simp only [collectedIn, List.countP_cons] at h2 ⊢
      rw [h2]
      cases e <;> simp_all [batchOf]
    · simp only [launchesOf, List.filterMap_cons] at h3 ⊢
      cases e <;> simp_all [batchOf]
    · intro cap hm
      simp only [List.mem_cons] at hm
      rcases hm with hm | hm
      · subst hm; simp [batchOf] at he
      · exact h4 cap hm

theorem indexed_snd : ∀ (names : List String) (ti : Int), (indexed ti names).map Prod.snd = names
  | [], _ => rfl
  | t :: ts, ti => by simp [indexed, indexed_snd ts (ti + 1)]

theorem indexed_fst : ∀ (names : List String) (k : Nat),
    (indexed (k : Int) names).map Prod.fst = (List.range' k names.length).map Int.ofNat
  | [], _ => rfl
  | t :: ts, k => by
    have := indexed_fst ts (k + 1)
    push_cast at this
    simp [indexed, List.range'_succ, this]

theorem indexed_append : ∀ (xs ys : List String) (ti : Int),
    indexed ti (xs ++ ys) = indexed ti xs ++ indexed (ti + xs.length) ys
  | [], ys, ti => by simp [indexed]
  | x :: xs, ys, ti => by
    have := indexed_append xs ys (ti + 1)
    rw [show ti + 1 + (xs.length : Int) = ti + ((xs.length : Int) + 1) by ring] at this
    simp only [List.cons_append, indexed, List.length_cons, Nat.cast_add, Nat.cast_one]
    exact congrArg (List.cons (ti, x)) this

theorem launchEvents_mem (b : Int) :
    ∀ (names : List String) (ti : Int) (b' i : Int) (t : String),
      Event.launch b' i t ∈ launchEvents b ti names →
      ∃ j : Nat, i = ti + j ∧ names[j]? = some t := by
  intro names
  induction names with
  | nil => intro ti b' i t h; simp [launchEvents] at h
  | cons x xs ih =>
    intro ti b' i t h
    simp only [launchEvents, List.mem_cons] at h
    rcases h with h | h
    · injection h with _ h2 h3
      exact ⟨0, by simp [h2], by simp [h3]⟩
    · obtain ⟨j, hj, hx⟩ := ih (ti + 1) b' i t h
      exact ⟨j + 1, by push_cast; omega, by simpa using hx⟩

theorem slice_getElem (tagNames : List String) (k s j : Nat) (t : String)
    (h : ((tagNames.drop k).take s)[j]? = some t) : tagNames[k + j]? = some t := by
  rw [List.getElem?_take] at h
  split at h
  · rw [List.getElem?_drop] at h; exact h
  · cases h

/-- A batch that runs launches the tags of its slice, with their indices. -/
theorem batchLoop_slices (env : Env) (arrival : Arrival)
    (registry repo authorization : String) (tagNames : List String)
    (steps remain limit : Int) (hl : 1 ≤ limit)
    (hcalc : calculateBatchSteps tagNames.length limit = .ok (steps, remain)) :
    ∀ (n : Nat) (b : Int) (k : Nat) (tags : GoMap String),
      1 ≤ b → b + n = steps + 1 → (k : Int) = min ((b - 1) * limit) tagNames.length →
      ∀ b' cap, Event.makeChan b' cap ∈
          (batchLoop env arrival registry repo authorization tagNames steps remain limit
            n b (k : Int) tags).1 →
        launchesOf b' (batchLoop env arrival registry repo authorization tagNames steps remain
            limit n b (k : Int) tags).1 =
          indexed ((b' - 1) * limit) ((tagNames.drop ((b' - 1) * limit).toNat).take
            (min (b' * limit) tagNames.length - (b' - 1) * limit).toNat) := by
  intro n b k tags hb1 hbn hk
  have hA := batchLoop_batches env arrival registry repo authorization tagNames steps remain
    limit hl hcalc
  revert n b k tags
  apply batchLoop_induction env arrival registry repo authorization tagNames steps remain limit
    hl hcalc (fun _ _ _ out => ∀ b' cap, Event.makeChan b' cap ∈ out.1 →
        launchesOf b' out.1 =
          indexed ((b' - 1) * limit) ((tagNames.drop ((b' - 1) * limit).toNat).take
            (min (b' * limit) tagNames.length - (b' - 1) * limit).toNat))
  · intro tags b' cap h; simp at h
  · intro n b k s tags hb1 hbn hk _ _ _ hks ih rl hrl b' cap hmem
    obtain ⟨rs, hrs, _, _⟩ := receiveLoop_trace b s (arrival b (((tagNames.drop k).take s).map
      fun t => goroutine env registry repo t authorization)) tags
    rw [← hrl] at hrs
    obtain ⟨-, -, -, -, hL5, -, -, hL8⟩ := launchEvents_counts b ((tagNames.drop k).take s) k
    obtain ⟨-, -, -, -, hR5, -, -, hR8, -⟩ := receives_counts b rs
    have hrest : ∀ e ∈ (continueWith rl.2 fun tags' =>
        batchLoop env arrival registry repo authorization tagNames steps remain limit
          n (b + 1) ((k + s : Nat) : Int) tags').1, ∀ b'', batchOf e = some b'' → b + 1 ≤ b'' := by
      intro e he b'' hb''
      cases hc : rl.2 with
      | done tags' =>
        rw [hc] at he
        exact hA n (b + 1) (k + s) tags' (by omega) (by omega) (by rw [hks]; ring_nf) e he b'' hb''
      | abort err => rw [hc] at he; simp [continueWith] at he
      | crashed p => rw [hc] at he; simp [continueWith] at he
      | blocked => rw [hc] at he; simp [continueWith] at he
    have hhead : ∀ b'', launchesOf b'' [Event.makeChan b s] = [] := by
      intro b''; simp [launchesOf]
    rw [show Event.makeChan b (s : Int) :: (launchEvents b k ((tagNames.drop k).take s) ++ rl.1 ++
        (continueWith rl.2 fun tags' =>
          batchLoop env arrival registry repo authorization tagNames steps remain limit
            n (b + 1) ((k + s : Nat) : Int) tags').1) =
        [Event.makeChan b (s : Int)] ++ (launchEvents b k ((tagNames.drop k).take s) ++ rl.1 ++
        (continueWith rl.2 fun tags' =>
          batchLoop env arrival registry repo authorization tagNames steps remain limit
            n (b + 1) ((k + s : Nat) : Int) tags').1) from rfl] at hmem ⊢
    simp only [launchesOf_append, hhead, hL5, hrs, hR5, List.nil_append, List.append_nil]
    by_cases hb : b' = b
    · subst hb
      have h0 := (no_batch_counts b' _ (fun e he hbe => by
        have := hrest e he b' hbe; omega)).2.2.1
      simp only [h0, if_true, List.append_nil]
      have e1 : ((b' - 1) * limit).toNat = k := by omega
      have e2 : (min (b' * limit) tagNames.length - (b' - 1) * limit).toNat = s := by
        rw [← hks, ← hk]; push_cast; omega
      rw [e1, e2, hk]
    · simp only [hb, if_false, List.nil_append]
      simp only [List.mem_append, List.mem_singleton, Event.makeChan.injEq] at hmem
      rcases hmem with hmem | (hmem | hmem) | hmem
      · exact absurd hmem.1 hb
      · exact absurd hmem (hL8 b' cap)
      · rw [hrs] at hmem; exact absurd hmem (hR8 b' cap)
      · cases hc : rl.2 with
        | done tags' =>
          rw [hc] at hmem
          exact ih tags' b' cap hmem
        | abort err => rw [hc] at hmem; simp [continueWith] at hmem
        | crashed p => rw [hc] at hmem; simp [continueWith] at hmem
        | blocked => rw [hc] at hmem; simp [continueWith] at hmem

/-- A run that returns a map has launched every remaining index once, in order;
no run panics in the controlling flow; and every launch reads an index in
range. -/
theorem batchLoop_launches (env : Env) (arrival : Arrival)
    (registry repo authorization : String) (tagNames : List String)
    (steps remain limit : Int) (hl : 1 ≤ limit)
    (hcalc : calculateBatchSteps tagNames.length limit = .ok (steps, remain)) :
    ∀ (n : Nat) (b : Int) (k : Nat) (tags : GoMap String),
      1 ≤ b → b + n = steps + 1 → (k : Int) = min ((b - 1) * limit) tagNames.length →
      (∀ m, (batchLoop env arrival registry repo authorization tagNames steps remain limit
          n b (k : Int) tags).2 = .returned (some m) none →
        launchedIndices (batchLoop env arrival registry repo authorization tagNames steps remain
          limit n b (k : Int) tags).1 = (indexed k (tagNames.drop k)).map Prod.fst) ∧
      (∀ p, (batchLoop env arrival registry repo authorization tagNames steps remain limit
          n b (k : Int) tags).2 ≠ .panicked p) ∧
      (∀ b' i t, Event.launch b' i t ∈
          (batchLoop env arrival registry repo authorization tagNames steps remain limit
            n b (k : Int) tags).1 →
        0 ≤ i ∧ i < tagNames.length ∧ tagNames[i.toNat]? = some t) := by
  apply batchLoop_induction env arrival registry repo authorization tagNames steps remain limit
    hl hcalc (fun _ k _ out =>
      (∀ m, out.2 = .returned (some m) none →
        launchedIndices out.1 = (indexed k (tagNames.drop k)).map Prod.fst) ∧
      (∀ p, out.2 ≠ .panicked p) ∧
      (∀ b' i t, Event.launch b' i t ∈ out.1 →
        0 ≤ i ∧ i < tagNames.length ∧ tagNames[i.toNat]? = some t))
  · intro tags
    refine ⟨?_, ?_, ?_⟩
    · intro m _; simp [launchedIndices, indexed]
    · intro p h; cases h
    · intro b' i t h; simp at h
  · intro n b k s tags _ _ _ _ _ _ hks ih rl hrl
    obtain ⟨rs, hrs, _, _⟩ := receiveLoop_trace b s (arrival b (((tagNames.drop k).take s).map
      fun t => goroutine env registry repo t authorization)) tags
    rw [← hrl] at hrs
    obtain ⟨-, -, -, -, -, hL6, -, -⟩ := launchEvents_counts b ((tagNames.drop k).take s) k
    obtain ⟨-, -, -, -, -, hR6, -, -, hR9⟩ := receives_counts b rs
    have hle : k + s ≤ tagNames.length := by
      have : ((k + s : Nat) : Int) ≤ tagNames.length := by rw [hks]; exact min_le_right _ _
      exact_mod_cast this
    refine ⟨?_, ?_, ?_⟩
    · intro m hm
      cases hc : rl.2 with
      | done tags' =>
        rw [hc] at hm
        have h1 := (ih tags').1 m hm
        rw [show Event.makeChan b (s : Int) :: (launchEvents b k ((tagNames.drop k).take s) ++
            rl.1 ++ (continueWith (Collected.done tags') fun tags' =>
              batchLoop env arrival registry repo authorization tagNames steps remain limit
                n (b + 1) ((k + s : Nat) : Int) tags').1) =
            [Event.makeChan b (s : Int)] ++ (launchEvents b k ((tagNames.drop k).take s) ++
            rl.1 ++ (continueWith (Collected.done tags') fun tags' =>
              batchLoop env arrival registry repo authorization tagNames steps remain limit
                n (b + 1) ((k + s : Nat) : Int) tags').1) from rfl]
        simp only [launchedIndices_append, hL6, hrs, hR6, List.append_nil]
        have h1' : launchedIndices (continueWith (Collected.done tags') fun tags' =>
              batchLoop env arrival registry repo authorization tagNames steps remain limit
                n (b + 1) ((k + s : Nat) : Int) tags').1 =
            (indexed ((k + s : Nat) : Int) (tagNames.drop (k + s))).map Prod.fst := h1
        rw [h1']
        have hsplit : tagNames.drop k = (tagNames.drop k).take s ++ tagNames.drop (k + s) := by
          conv_lhs => rw [← List.take_append_drop s (tagNames.drop k)]
          rw [List.drop_drop, Nat.add_comm]
        have hlen : ((tagNames.drop k).take s).length = s := by simp; omega
        conv_rhs => rw [hsplit, indexed_append, hlen]
        simp [launchedIndices]
      | abort err => rw [hc] at hm; simp [continueWith] at hm
      | crashed p => rw [hc] at hm; simp [continueWith] at hm
      | blocked => rw [hc] at hm; simp [continueWith] at hm
    · intro p hp
      cases hc : rl.2 with
      | done tags' => rw [hc] at hp; exact (ih tags').2.1 p hp
      | abort err => rw [hc] at hp; simp [continueWith] at hp
      | crashed p => rw [hc] at hp; simp [continueWith] at hp
      | blocked => rw [hc] at hp; simp [continueWith] at hp
    · intro b' i t hmem
      simp only [List.mem_cons, List.mem_append] at hmem
      rcases hmem with hmem | (hmem | hmem) | hmem
      · cases hmem
      · obtain ⟨j, hj, hx⟩ := launchEvents_mem b _ _ _ _ _ hmem
        have h2 := slice_getElem tagNames k s j t hx
        have h3 := (List.getElem?_eq_some_iff.1 h2).1
        subst hj
        refine ⟨by omega, by omega, ?_⟩
        rw [show ((k : Int) + (j : Int)).toNat = k + j by omega]
        exact h2
      · rw [hrs] at hmem; exact absurd hmem (hR9 b' i t)
      · cases hc : rl.2 with
        | done tags' => rw [hc] at hmem; exact (ih tags').2.2 b' i t hmem
        | abort err => rw [hc] at hmem; simp [continueWith] at hmem
        | crashed p => rw [hc] at hmem; simp [continueWith] at hmem
        | blocked => rw [hc] at hmem; simp [continueWith] at hmem

theorem prefix_append_cases {α : Type} (p X Y : List α) (h : p <+: X ++ Y) :
    p <+: X ∨ ∃ p', p = X ++ p' ∧ p' <+: Y := by
  obtain ⟨r, hr⟩ := h
  rcases List.append_eq_append_iff.1 hr with ⟨a', h1, h2⟩ | ⟨c', h1, h2⟩
  · exact Or.inl ⟨a', h1.symm⟩
  · exact Or.inr ⟨c', h1, ⟨r, h2.symm⟩⟩

theorem split_append_cases {α : Type} (p q X Y : List α) (e : α) (h : X ++ Y = p ++ e :: q) :
    (∃ q', X = p ++ e :: q' ∧ q = q' ++ Y) ∨ (∃ p', p = X ++ p' ∧ Y = p' ++ e :: q) := by
  rcases List.append_eq_append_iff.1 h with ⟨a', h1, h2⟩ | ⟨c', h1, h2⟩
  · exact Or.inr ⟨a', h1, h2⟩
  · cases c' with
    | nil =>
      simp only [List.append_nil, List.nil_append] at h1 h2
      exact Or.inr ⟨[], by simp [h1], h2.symm⟩
    | cons x c'' =>
      simp only [List.cons_append, List.cons.injEq] at h2
      obtain ⟨rfl, h2⟩ := h2
      exact Or.inl ⟨c'', h1, h2⟩

theorem prefix_counts (p q : List Event) (h : p <+: q) :
    launched p ≤ launched q ∧ collected p ≤ collected q ∧
    (∀ b, launchedIn b p ≤ launchedIn b q) ∧ (∀ b, collectedIn b p ≤ collectedIn b q) :=
  ⟨h.sublist.countP_le _, h.sublist.countP_le _, fun _ => h.sublist.countP_le _,
    fun _ => h.sublist.countP_le _⟩

/-- One batch: the channel is made, `s` goroutines are launched, then at most
`s` results are received. -/
theorem block_facts (b : Int) (k : Int) (names : List String) (rs : List digestResponse)
    (s : Nat) (hn : names.length = s) (hr : rs.length ≤ s) :
    launched (Event.makeChan b s :: (launchEvents b k names ++ rs.map (Event.receive b))) = s ∧
    collected (Event.makeChan b s :: (launchEvents b k names ++ rs.map (Event.receive b)))
      = rs.length ∧
    (∀ b', launchedIn b' (Event.makeChan b s :: (launchEvents b k names ++
      rs.map (Event.receive b))) = if b' = b then s else 0) ∧
    (∀ b', collectedIn b' (Event.makeChan b s :: (launchEvents b k names ++
      rs.map (Event.receive b))) = if b' = b then rs.length else 0) ∧
    (∀ e ∈ Event.makeChan b s :: (launchEvents b k names ++ rs.map (Event.receive b)),
      batchOf e = some b) ∧
    (∀ p, p <+: Event.makeChan b s :: (launchEvents b k names ++ rs.map (Event.receive b)) →
      collected p ≤ launched p ∧ launched p ≤ collected p + s) := by
  obtain ⟨hL1, hL2, hL3, hL4, -, -, hL7, -⟩ := launchEvents_counts b names k
  obtain ⟨hR1, hR2, hR3, hR4, -, -, hR7, -, -⟩ := receives_counts b rs
  have hc1 : ∀ tr, launched (Event.makeChan b s :: tr) = launched tr := by
    intro tr; simp [launched, List.countP_cons]
  have hc2 : ∀ tr, collected (Event.makeChan b s :: tr) = collected tr := by
    intro tr; simp [collected, List.countP_cons]
  have hc3 : ∀ b' tr, launchedIn b' (Event.makeChan b s :: tr) = launchedIn b' tr := by
    intro b' tr; simp [launchedIn, List.countP_cons]
  have hc4 : ∀ b' tr, collectedIn b' (Event.makeChan b s :: tr) = collectedIn b' tr := by
    intro b' tr; simp [collectedIn, List.countP_cons]
  refine ⟨?_, ?_, ?_, ?_, ?_, ?_⟩
  · rw [hc1, launched_append, hL1, hR1, hn]; rfl
  · rw [hc2, collected_append, hL2, hR2]; simp
  · intro b'; rw [hc3, launchedIn_append, hL3, hR3, hn]; simp
  · intro b'; rw [hc4, collectedIn_append, hL4, hR4]; simp
  · intro e he
    simp only [List.mem_cons, List.mem_append] at he
    rcases he with rfl | he | he
    · rfl
    · exact hL7 e he
    · exact hR7 e he
  · intro p hp
    rcases List.prefix_cons_iff.1 hp with rfl | ⟨p1, rfl, hp1⟩
    · simp [launched, collected]
    · rw [hc1, hc2]
      rcases prefix_append_cases _ _ _ hp1 with h | ⟨p2, rfl, hp2⟩
      · obtain ⟨h1, h2, -, -⟩ := prefix_counts _ _ h
        rw [hL1] at h1; rw [hL2] at h2
        omega
      · obtain ⟨h1, h2, -, -⟩ := prefix_counts _ _ hp2
        rw [hR1] at h1; rw [hR2] at h2
        rw [launched_append, collected_append, hL1, hL2]
        omega

/-- Batches do not overlap: at every point of a run the launched fetches not
yet collected number at most `limit`, and when a fetch of a batch is launched
every result of every earlier batch has been received. -/
theorem batchLoop_sequential (env : Env) (arrival : Arrival)
    (registry repo authorization : String) (tagNames : List String)
    (steps remain limit : Int) (hl : 1 ≤ limit)
    (hcalc : calculateBatchSteps tagNames.length limit = .ok (steps, remain)) :
    ∀ (n : Nat) (b : Int) (k : Nat) (tags : GoMap String),
      1 ≤ b → b + n = steps + 1 → (k : Int) = min ((b - 1) * limit) tagNames.length →
      (∀ p, p <+: (batchLoop env arrival registry repo authorization tagNames steps remain limit
          n b (k : Int) tags).1 →
        collected p ≤ launched p ∧ (launched p : Int) ≤ collected p + limit) ∧
      (∀ p b₂ i t q, (batchLoop env arrival registry repo authorization tagNames steps remain
          limit n b (k : Int) tags).1 = p ++ Event.launch b₂ i t :: q →
        ∀ b', b' < b₂ → collectedIn b' p =
          launchedIn b' (batchLoop env arrival registry repo authorization tagNames steps remain
            limit n b (k : Int) tags).1) := by
  intro n b k tags hb1 hbn hk
  have hA := batchLoop_batches env arrival registry repo authorization tagNames steps remain
    limit hl hcalc
  revert n b k tags
  apply batchLoop_induction env arrival registry repo authorization tagNames steps remain limit
    hl hcalc (fun _ _ _ out =>
      (∀ p, p <+: out.1 →
        collected p ≤ launched p ∧ (launched p : Int) ≤ collected p + limit) ∧
      (∀ p b₂ i t q, out.1 = p ++ Event.launch b₂ i t :: q →
        ∀ b', b' < b₂ → collectedIn b' p = launchedIn b' out.1))
  · intro tags
    constructor
    · intro p hp
      have : p = [] := by simpa using hp
      subst this
      simp [launched, collected]; omega
    · intro p b₂ i t q h
      simp at h
  · intro n b k s tags hb1 hbn hk _ _ hsl hks ih rl hrl
    obtain ⟨rs, hrs, hrs1, hrs2⟩ := receiveLoop_trace b s
      (arrival b (((tagNames.drop k).take s).map
        fun t => goroutine env registry repo t authorization)) tags
    rw [← hrl] at hrs hrs2
    have hle : k + s ≤ tagNames.length := by
      have : ((k + s : Nat) : Int) ≤ tagNames.length := by rw [hks]; exact min_le_right _ _
      exact_mod_cast this
    have hlen : ((tagNames.drop k).take s).length = s := by simp; omega
    obtain ⟨hX1, hX2, hX3, hX4, hX5, hX6⟩ := block_facts b k _ rs s hlen hrs1
    have hrest : ∀ e ∈ (continueWith rl.2 fun tags' =>
        batchLoop env arrival registry repo authorization tagNames steps remain limit
          n (b + 1) ((k + s : Nat) : Int) tags').1, ∀ b'', batchOf e = some b'' → b + 1 ≤ b'' := by
      intro e he b'' hb''
      cases hc : rl.2 with
      | done tags' =>
        rw [hc] at he
        exact hA n (b + 1) (k + s) tags' (by omega) (by omega) (by rw [hks]; ring_nf) e he b'' hb''
      | abort err => rw [hc] at he; simp [continueWith] at he
      | crashed p => rw [hc] at he; simp [continueWith] at he
      | blocked => rw [hc] at he; simp [continueWith] at he
    have hT : Event.makeChan b (s : Int) :: (launchEvents b k ((tagNames.drop k).take s) ++
        rl.1 ++ (continueWith rl.2 fun tags' =>
          batchLoop env arrival registry repo authorization tagNames steps remain limit
            n (b + 1) ((k + s : Nat) : Int) tags').1) =
        (Event.makeChan b (s : Int) :: (launchEvents b k ((tagNames.drop k).take s) ++
          rs.map (Event.receive b))) ++ (continueWith rl.2 fun tags' =>
          batchLoop env arrival registry repo authorization tagNames steps remain limit
            n (b + 1) ((k + s : Nat) : Int) tags').1 := by
      rw [hrs]; rfl
    simp only [hT]
    constructor
    · intro p hp
      rcases prefix_append_cases _ _ _ hp with h | ⟨p', rfl, hp'⟩
      · have := hX6 p h
        omega
      · cases hc : rl.2 with
        | done tags' =>
          rw [hc] at hp'
          have h1 := (ih tags').1 p' hp'
          have h2 := hrs2 tags' hc
          rw [launched_append, collected_append, hX1, hX2, h2]
          push_cast
          omega
        | abort err =>
          rw [hc] at hp'
          have : p' = [] := by simpa [continueWith] using hp'
          subst this
          rw [List.append_nil, hX1, hX2]; omega
        | crashed _ =>
          rw [hc] at hp'
          have : p' = [] := by simpa [continueWith] using hp'
          subst this
          rw [List.append_nil, hX1, hX2]; omega
        | blocked =>
          rw [hc] at hp'
          have : p' = [] := by simpa [continueWith] using hp'
          subst this
          rw [List.append_nil, hX1, hX2]; omega
    · intro p b₂ i t q h b' hb'
      rcases split_append_cases _ _ _ _ _ h with ⟨q', h1, -⟩ | ⟨p', rfl, h2⟩
      · have hb₂ : b₂ = b := by
          have := hX5 (Event.launch b₂ i t) (by rw [h1]; simp)
          simpa [batchOf] using this
        subst hb₂
        have hp : p <+: Event.makeChan b₂ (s : Int) ::
            (launchEvents b₂ k ((tagNames.drop k).take s) ++ rs.map (Event.receive b₂)) :=
          ⟨_, h1.symm⟩
        have h3 := (prefix_counts _ _ hp).2.2.2 b'
        rw [hX4, if_neg (by omega)] at h3
        have h4 := (no_batch_counts b' _ (fun e he hbe => by
          have := hrest e he b' hbe; omega)).1
        rw [launchedIn_append, hX3, if_neg (by omega), h4]
        omega
      · cases hc : rl.2 with
        | done tags' =>
          rw [hc] at h2
          have hb₂ : b + 1 ≤ b₂ := by
            have := hrest (Event.launch b₂ i t) (by rw [hc, h2]; simp) b₂ rfl
            exact this
          have h3 := (ih tags').2 p' b₂ i t q h2 b' hb'
          have h4 := hrs2 tags' hc
          rw [collectedIn_append, launchedIn_append, hX3, hX4, h4, h3]
          rfl
        | abort err => rw [hc] at h2; simp [continueWith] at h2
        | crashed _ => rw [hc] at h2; simp [continueWith] at h2
        | blocked => rw [hc] at h2; simp [continueWith] at h2

/-- In a run that returns a map every batch from `b` to the last one runs. -/
theorem batchLoop_all_run (env : Env) (arrival : Arrival)
    (registry repo authorization : String) (tagNames : List String)
    (steps remain limit : Int) (hl : 1 ≤ limit)
    (hcalc : calculateBatchSteps tagNames.length limit = .ok (steps, remain)) :
    ∀ (n : Nat) (b : Int) (k : Nat) (tags : GoMap String),
      1 ≤ b → b + n = steps + 1 → (k : Int) = min ((b - 1) * limit) tagNames.length →
      ∀ m, (batchLoop env arrival registry repo authorization tagNames steps remain limit
          n b (k : Int) tags).2 = .returned (some m) none →
        ∀ b', b ≤ b' → b' ≤ steps → ∃ cap, Event.makeChan b' cap ∈
          (batchLoop env arrival registry repo authorization tagNames steps remain limit
            n b (k : Int) tags).1 := by
  apply batchLoop_induction env arrival registry repo authorization tagNames steps remain limit
    hl hcalc (fun b _ _ out => ∀ m, out.2 = .returned (some m) none →
        ∀ b', b ≤ b' → b' ≤ steps → ∃ cap, Event.makeChan b' cap ∈ out.1)
  · intro tags m _ b' h1 h2; omega
  · intro n b k s tags _ _ _ _ _ _ _ ih rl _ m hm b' hb1 hb2
    by_cases hb : b' = b
    · subst hb; exact ⟨s, by simp⟩
    · cases hc : rl.2 with
      | done tags' =>
        rw [hc] at hm
        obtain ⟨cap, hcap⟩ := ih tags' m hm b' (by omega) hb2
        exact ⟨cap, List.mem_cons_of_mem _ (List.mem_append_right _ hcap)⟩
      | abort err => rw [hc] at hm; simp [continueWith] at hm
      | crashed p => rw [hc] at hm; simp [continueWith] at hm
      | blocked => rw [hc] at hm; simp [continueWith] at hm

/-- C6: with a concurrency in [1,128], every batch `b` that runs launches
fetches for exactly the tags at indices `[(b-1)*limit, min(b*limit, count))` of
the listed sequence, in input order; every launch reads an index in
`[0, count)`, so the controlling flow never panics; and in a run that returns
a map every batch `1..batchSteps` runs and every index `0..count-1` is launched
exactly once, in order. -/
theorem batches_launch_slices (env : Env) (arrival : Arrival)
    (registry repo authorization : String) (c : Int) (tagNames : List String)
    (h1 : 1 ≤ c) (h2 : c ≤ 128)
    (hlist : fetchTagNames env registry repo authorization = .ok tagNames) :
    (∀ b cap, Event.makeChan b cap ∈ (FetchTags env arrival registry repo authorization c).1 →
      (launchesOf b (FetchTags env arrival registry repo authorization c).1).map Prod.snd =
        (tagNames.drop ((b - 1) * c).toNat).take
          (min (b * c) tagNames.length - (b - 1) * c).toNat ∧
      (launchesOf b (FetchTags env arrival registry repo authorization c).1).map Prod.fst =
        (List.range' ((b - 1) * c).toNat
          (min (b * c) tagNames.length - (b - 1) * c).toNat).map Int.ofNat) ∧
    (∀ b i t, Event.launch b i t ∈ (FetchTags env arrival registry repo authorization c).1 →
      0 ≤ i ∧ i < tagNames.length ∧ tagNames[i.toNat]? = some t) ∧
    (∀ p, (FetchTags env arrival registry repo authorization c).2 ≠ .panicked p) ∧
    (∀ m, (FetchTags env arrival registry repo authorization c).2 = .returned (some m) none →
      launchedIndices (FetchTags env arrival registry repo authorization c).1 =
        (List.range tagNames.length).map Int.ofNat ∧
      ∀ batchSteps batchRemain,
        calculateBatchSteps tagNames.length c = .ok (batchSteps, batchRemain) →
        ∀ b, 1 ≤ b → b ≤ batchSteps → ∃ cap,
          Event.makeChan b cap ∈ (FetchTags env arrival registry repo authorization c).1) := by
  obtain ⟨steps, remain, hcalc, e1, e2, hF⟩ :=
    FetchTags_valid env arrival registry repo authorization c h1 h2 tagNames hlist
  have hR' := batchLoop_all_run env arrival registry repo authorization tagNames steps remain c
    h1 hcalc steps.toNat 1 0 GoMap.empty (le_refl _) e1 e2
  have hS := batchLoop_slices env arrival registry repo authorization tagNames steps remain c
    h1 hcalc steps.toNat 1 0 GoMap.empty (le_refl _) e1 e2
  have hA := batchLoop_batches env arrival registry repo authorization tagNames steps remain c
    h1 hcalc steps.toNat 1 0 GoMap.empty (le_refl _) e1 e2
  obtain ⟨hI, hP, hR⟩ := batchLoop_launches env arrival registry repo authorization tagNames
    steps remain c h1 hcalc steps.toNat 1 0 GoMap.empty (le_refl _) e1 e2
  have hc1 : ∀ b url tr, launchesOf b (Event.listRequest url :: tr) = launchesOf b tr := by
    intro b url tr; simp [launchesOf]
  have hc2 : ∀ url tr, launchedIndices (Event.listRequest url :: tr) = launchedIndices tr := by
    intro url tr; simp [launchedIndices]
  rw [hF]
  simp only [hc1, hc2, List.mem_cons]
  refine ⟨?_, ?_, hP, ?_⟩
  · intro b cap hmem
    rcases hmem with hmem | hmem
    · cases hmem
    · have hb : 1 ≤ b := hA _ hmem b rfl
      rw [hS b cap hmem, indexed_snd]
      refine ⟨rfl, ?_⟩
      have hnn : 0 ≤ (b - 1) * c := mul_nonneg (by omega) (by omega)
      obtain ⟨lo, hlo⟩ := Int.eq_ofNat_of_zero_le hnn
      rw [hlo, indexed_fst]
      simp only [Int.toNat_ofNat, List.length_take, List.length_drop]
      congr 2
      have := min_le_right (b * c) (tagNames.length : Int)
      omega
  · intro b i t hmem
    rcases hmem with hmem | hmem
    · cases hmem
    · exact hR b i t hmem
  · intro m hm
    constructor
    · rw [hI m hm, indexed_fst]
      simp [List.range_eq_range']
    · intro batchSteps batchRemain hcalc' b hb1 hb2
      rw [hcalc] at hcalc'
      injection hcalc' with hcalc'
      injection hcalc' with hs _
      subst hs
      obtain ⟨cap, hcap⟩ := hR' m hm b hb1 hb2
      exact ⟨cap, Or.inr hcap⟩

/-- Witness of `batches_launch_slices`: tags v1..v5 with concurrency 2; the
third batch launches v5 alone, at index 4. -/
theorem batches_launch_slices_witness :
    launchesOf 3 (FetchTags (stubEnv "r" "p" ["v1", "v2", "v3", "v4", "v5"]
        fun t => .ok (digestResponseOk (demoDigest t))) inOrder "r" "p" "auth" 2).1 =
      [(4, "v5")] := by
  have h := (batches_launch_slices (stubEnv "r" "p" ["v1", "v2", "v3", "v4", "v5"]
      fun t => .ok (digestResponseOk (demoDigest t))) inOrder "r" "p" "auth" 2
      ["v1", "v2", "v3", "v4", "v5"] (by decide) (by decide) (by decide)).1 3 1 (by decide)
  have e : ∀ l : List (Int × String), l.map Prod.snd = ["v5"] ∧ l.map Prod.fst = [4] →
      l = [(4, "v5")] := by
    intro l hl
    match l, hl with
    | [(i, t)], hl => simp at hl; simp [hl.1, hl.2]
  exact e _ h

/-- C9: in every run of `FetchTags` with a concurrency limit `c` in [1,128],
when a fetch of a batch is launched every fetch launched by every earlier
batch has been received, and at every point of the run the number of fetches
launched and not yet received is at most `c`. -/
theorem batches_do_not_overlap (env : Env) (arrival : Arrival)
    (registry repo authorization : String) (c : Int) (h1 : 1 ≤ c) (h2 : c ≤ 128) :
    (∀ p b i t q,
      (FetchTags env arrival registry repo authorization c).1 = p ++ Event.launch b i t :: q →
      ∀ b', b' < b → collectedIn b' p =
        launchedIn b' (FetchTags env arrival registry repo authorization c).1) ∧
    (∀ p, p <+: (FetchTags env arrival registry repo authorization c).1 →
      collected p ≤ launched p ∧ (launched p : Int) - collected p ≤ c) := by
  have hc1 : ∀ url tr, launched (Event.listRequest url :: tr) = launched tr := by
    intro url tr; simp [launched, List.countP_cons]
  have hc2 : ∀ url tr, collected (Event.listRequest url :: tr) = collected tr := by
    intro url tr; simp [collected, List.countP_cons]
  have hc3 : ∀ b' url tr, launchedIn b' (Event.listRequest url :: tr) = launchedIn b' tr := by
    intro b' url tr; simp [launchedIn, List.countP_cons]
  have hc4 : ∀ b' url tr, collectedIn b' (Event.listRequest url :: tr) = collectedIn b' tr := by
    intro b' url tr; simp [collectedIn, List.countP_cons]
  cases hlist : fetchTagNames env registry repo authorization with
  | error err =>
    have hF : (FetchTags env arrival registry repo authorization c).1 =
        [Event.listRequest ("https://" ++ registry ++ "/v2/" ++ repo ++ "/tags/list")] := by
      simp [FetchTags, validateConcurrency_valid c h1 h2, hlist]
    rw [hF]
    constructor
    · intro p b i t q h
      rcases List.append_eq_cons_iff.1 h.symm with ⟨_, h'⟩ | ⟨a', _, h'⟩
      · cases h'
      · have := congrArg List.length h'
        simp at this
        omega
    · intro p hp
      rcases List.prefix_cons_iff.1 hp with rfl | ⟨p1, rfl, hp1⟩
      · simp [launched, collected]; omega
      · have : p1 = [] := by simpa using hp1
        subst this
        simp [launched, collected]; omega
  | ok tagNames =>
    obtain ⟨steps, remain, hcalc, e1, e2, hF⟩ :=
      FetchTags_valid env arrival registry repo authorization c h1 h2 tagNames hlist
    obtain ⟨hP, hQ⟩ := batchLoop_sequential env arrival registry repo authorization tagNames
      steps remain c h1 hcalc steps.toNat 1 0 GoMap.empty (le_refl _) e1 e2
    rw [hF]
    simp only
    constructor
    · intro p b i t q h b' hb'
      cases p with
      | nil => simp at h
      | cons x p1 =>
        simp only [List.cons_append, List.cons.injEq] at h
        obtain ⟨rfl, h⟩ := h
        rw [hc3, hc4]
        exact hQ p1 b i t q h b' hb'
    · intro p hp
      rcases List.prefix_cons_iff.1 hp with rfl | ⟨p1, rfl, hp1⟩
      · simp [launched, collected]; omega
      · rw [hc1, hc2]
        have := hP p1 hp1
        omega

/-- Witness of `batches_do_not_overlap`: tags v1..v5 with concurrency 2, results
arriving in reverse; after the first batch's two launches and its first
receive, at most two fetches are in flight. -/
theorem batches_do_not_overlap_witness :
    collected [Event.listRequest "https://r/v2/p/tags/list", Event.makeChan 1 2,
        Event.launch 1 0 "v1", Event.launch 1 1 "v2",
        Event.receive 1 { TagName := "v2", RepoDigest := "d2", Error := none }] ≤
      launched [Event.listRequest "https://r/v2/p/tags/list", Event.makeChan 1 2,
        Event.launch 1 0 "v1", Event.launch 1 1 "v2",
        Event.receive 1 { TagName := "v2", RepoDigest := "d2", Error := none }] ∧
    (launched [Event.listRequest "https://r/v2/p/tags/list", Event.makeChan 1 2,
        Event.launch 1 0 "v1", Event.launch 1 1 "v2",
        Event.receive 1 { TagName := "v2", RepoDigest := "d2", Error := none }] : Int) -
      collected [Event.listRequest "https://r/v2/p/tags/list", Event.makeChan 1 2,
        Event.launch 1 0 "v1", Event.launch 1 1 "v2",
        Event.receive 1 { TagName := "v2", RepoDigest := "d2", Error := none }] ≤ 2 :=
  (batches_do_not_overlap (stubEnv "r" "p" ["v1", "v2", "v3", "v4", "v5"]
      fun t => .ok (digestResponseOk (demoDigest t))) reversed "r" "p" "auth" 2
      (by decide) (by decide)).2 _ (by decide)

/-- A run with a valid concurrency whose listing returns no tag makes the
listing request and returns an empty map. -/
theorem FetchTags_nil_list (env : Env) (arrival : Arrival)
    (registry repo authorization : String) (c : Int) (h1 : 1 ≤ c) (h2 : c ≤ 128)
    (hlist : fetchTagNames env registry repo authorization = .ok []) :
    FetchTags env arrival registry repo authorization c =
      ([Event.listRequest ("https://" ++ registry ++ "/v2/" ++ repo ++ "/tags/list")],
        .returned (some GoMap.empty) none) := by
  have hcalc : calculateBatchSteps (([] : List String).length : Int) c = .ok (0, 0) := by
    have := calculateBatchSteps_eq 0 c h1 (le_refl _)
    simpa using this
  simp only [FetchTags, validateConcurrency_valid c h1 h2, hlist, fetchBatches, hcalc]
  rfl

/-- C11: when the tag-list request fails, by a transport error `e` or by a
response whose status is not 200, `fetchTagNames` returns `(nil, err)` with the
request's error (`e`, or the bad-status text) and a `FetchTags` run that
reaches the listing returns `(nil, err)` having launched no fetch; when the
response has status 200 and its body cannot be decoded, `fetchTagNames` returns
an empty sequence and a nil error and such a run returns an empty map and a
nil error. -/
theorem listing_failure_contract (env : Env) (registry repo authorization : String) :
    (∀ e, env.roundTrip ("https://" ++ registry ++ "/v2/" ++ repo ++ "/tags/list")
        authorization = .error e →
      fetchTagNames env registry repo authorization = .error e ∧
      ∀ (arrival : Arrival) (c : Int), 1 ≤ c → c ≤ 128 →
        FetchTags env arrival registry repo authorization c =
          ([Event.listRequest ("https://" ++ registry ++ "/v2/" ++ repo ++ "/tags/list")],
            .returned none (some e))) ∧
    (∀ resp, env.roundTrip ("https://" ++ registry ++ "/v2/" ++ repo ++ "/tags/list")
        authorization = .ok resp → resp.StatusCode ≠ 200 →
      fetchTagNames env registry repo authorization =
        .error ("Bad response status: " ++ resp.Status ++ " >> " ++
          ("https://" ++ registry ++ "/v2/" ++ repo ++ "/tags/list")) ∧
      ∀ (arrival : Arrival) (c : Int), 1 ≤ c → c ≤ 128 →
        FetchTags env arrival registry repo authorization c =
          ([Event.listRequest ("https://" ++ registry ++ "/v2/" ++ repo ++ "/tags/list")],
            .returned none (some ("Bad response status: " ++ resp.Status ++ " >> " ++
              ("https://" ++ registry ++ "/v2/" ++ repo ++ "/tags/list"))))) ∧
    (∀ resp derr, env.roundTrip ("https://" ++ registry ++ "/v2/" ++ repo ++ "/tags/list")
        authorization = .ok resp → resp.StatusCode = 200 →
      env.decodeTagNames resp.Body = .error derr →
      fetchTagNames env registry repo authorization = .ok [] ∧
      ∀ (arrival : Arrival) (c : Int), 1 ≤ c → c ≤ 128 →
        FetchTags env arrival registry repo authorization c =
          ([Event.listRequest ("https://" ++ registry ++ "/v2/" ++ repo ++ "/tags/list")],
            .returned (some GoMap.empty) none)) := by
  have hfail : ∀ err, httpRequest env ("https://" ++ registry ++ "/v2/" ++ repo ++ "/tags/list")
        authorization = .error err →
      fetchTagNames env registry repo authorization = .error err ∧
      ∀ (arrival : Arrival) (c : Int), 1 ≤ c → c ≤ 128 →
        FetchTags env arrival registry repo authorization c =
          ([Event.listRequest ("https://" ++ registry ++ "/v2/" ++ repo ++ "/tags/list")],
            .returned none (some err)) := by
    intro err he
    have hl : fetchTagNames env registry repo authorization = .error err := by
      simp [fetchTagNames, he]
    refine ⟨hl, ?_⟩
    intro arrival c h1 h2
    simp [FetchTags, validateConcurrency_valid c h1 h2, hl]
  refine ⟨?_, ?_, ?_⟩
  · intro e he
    exact hfail e (by simp [httpRequest, he])
  · intro resp hr hs
    exact hfail _ (by simp [httpRequest, hr, hs])
  · intro resp derr hr hs hd
    have hreq : httpRequest env ("https://" ++ registry ++ "/v2/" ++ repo ++ "/tags/list")
        authorization = .ok resp := by
      simp [httpRequest, hr, hs]
    have hl : fetchTagNames env registry repo authorization = .ok [] := by
      simp [fetchTagNames, hreq, parseTagNamesJSON, hd]
    refine ⟨hl, ?_⟩
    intro arrival c h1 h2
    exact FetchTags_nil_list env arrival registry repo authorization c h1 h2 hl

/-- Witness of `listing_failure_contract`: with concurrency 4, a registry that
cannot be reached and one that answers 404 give a nil map and the request's
error, and one whose tag list is not JSON gives an empty map. -/
theorem listing_failure_contract_witness :
    (fetchTagNames downEnv "r" "p" "auth" = .error "connection refused" ∧
      FetchTags downEnv inOrder "r" "p" "auth" 4 =
        ([Event.listRequest ("https://" ++ "r" ++ "/v2/" ++ "p" ++ "/tags/list")],
          .returned none (some "connection refused"))) ∧
    (fetchTagNames notFoundEnv "r" "p" "auth" =
        .error "Bad response status: 404 Not Found >> https://r/v2/p/tags/list" ∧
      FetchTags notFoundEnv inOrder "r" "p" "auth" 4 =
        ([Event.listRequest ("https://" ++ "r" ++ "/v2/" ++ "p" ++ "/tags/list")],
          .returned none
            (some "Bad response status: 404 Not Found >> https://r/v2/p/tags/list"))) ∧
    (fetchTagNames garbledEnv "r" "p" "auth" = .ok [] ∧
      FetchTags garbledEnv inOrder "r" "p" "auth" 4 =
        ([Event.listRequest ("https://" ++ "r" ++ "/v2/" ++ "p" ++ "/tags/list")],
          .returned (some GoMap.empty) none)) :=
  ⟨⟨((listing_failure_contract downEnv "r" "p" "auth").1 "connection refused" rfl).1,
      ((listing_failure_contract downEnv "r" "p" "auth").1 "connection refused" rfl).2
        inOrder 4 (by decide) (by decide)⟩,
    ⟨((listing_failure_contract notFoundEnv "r" "p" "auth").2.1 _ rfl (by decide)).1,
      ((listing_failure_contract notFoundEnv "r" "p" "auth").2.1 _ rfl (by decide)).2
        inOrder 4 (by decide) (by decide)⟩,
    ⟨((listing_failure_contract garbledEnv "r" "p" "auth").2.2 bareResponse
        "invalid character" rfl rfl rfl).1,
      ((listing_failure_contract garbledEnv "r" "p" "auth").2.2 bareResponse
        "invalid character" rfl rfl rfl).2 inOrder 4 (by decide) (by decide)⟩⟩

/-- One-at-a-time processing of tags whose fetches all return: the
header-missing error if a tag has an error, else the map of digests. -/
theorem oneAtATime_eq (env : Env) (registry repo authorization : String) :
    ∀ (ts : List String) (tags : GoMap String),
      (∀ t ∈ ts, ∃ d e, fetchRepoDigest env registry repo t authorization = .ok (d, e)) →
      ((∃ t ∈ ts, ∃ d e, fetchRepoDigest env registry repo t authorization = .ok (d, some e)) →
        oneAtATime env registry repo authorization ts tags =
          .returned none (some "header 'Docker-Content-Digest' not found in HTTP response")) ∧
      ((¬ ∃ t ∈ ts, ∃ d e,
          fetchRepoDigest env registry repo t authorization = .ok (d, some e)) →
        oneAtATime env registry repo authorization ts tags =
          .returned (some fun x =>
            if x ∈ ts then some (digestOf env registry repo authorization x) else tags x)
            none) := by
  intro ts
  induction ts with
  | nil =>
    intro tags _
    exact ⟨by simp, by intro _; simp [oneAtATime]⟩
  | cons t ts ih =>
    intro tags hret
    obtain ⟨d, e, hde⟩ := hret t (by simp)
    obtain ⟨ih1, ih2⟩ := ih (tags.set t d) (fun t' ht' => hret t' (by simp [ht']))
    cases e with
    | some e =>
      constructor
      · intro _
        have := (fetchRepoDigest_error _ _ _ _ _ _ _ hde).2.1
        simp [oneAtATime, hde, this]
      · intro h
        exact absurd ⟨t, by simp, d, e, hde⟩ h
    | none =>
      constructor
      · intro h
        have h' : ∃ t' ∈ ts, ∃ d e,
            fetchRepoDigest env registry repo t' authorization = .ok (d, some e) := by
          obtain ⟨t', ht', d', e', hde'⟩ := h
          simp only [List.mem_cons] at ht'
          rcases ht' with rfl | ht'
          · rw [hde] at hde'; cases hde'
          · exact ⟨t', ht', d', e', hde'⟩
        simp only [oneAtATime, hde]
        exact ih1 h'
      · intro h
        have h' : ¬ ∃ t' ∈ ts, ∃ d e,
            fetchRepoDigest env registry repo t' authorization = .ok (d, some e) := by
          rintro ⟨t', ht', hx⟩
          exact h ⟨t', by simp [ht'], hx⟩
        simp only [oneAtATime, hde]
        rw [ih2 h']
        congr 2
        funext x
        by_cases hx : x ∈ ts
        · simp [hx]
        · by_cases hxt : x = t
          · subst hxt
            simp [hx, GoMap.set, digestOf_eq _ _ _ _ _ _ _ hde]
          · simp [hx, hxt, GoMap.set]

/-- What the batched run returns when every fetch returns. -/
theorem FetchTags_eq_oneAtATime (env : Env) (arrival : Arrival)
    (registry repo authorization : String) (c : Int) (tagNames : List String)
    (hfair : arrival.Fair) (h1 : 1 ≤ c) (h2 : c ≤ 128)
    (hlist : fetchTagNames env registry repo authorization = .ok tagNames)
    (hret : ∀ t ∈ tagNames, ∃ d e,
      fetchRepoDigest env registry repo t authorization = .ok (d, e)) :
    (FetchTags env arrival registry repo authorization c).2 =
      oneAtATime env registry repo authorization tagNames GoMap.empty := by
  obtain ⟨steps, remain, hcalc, e1, e2, hF⟩ :=
    FetchTags_valid env arrival registry repo authorization c h1 h2 tagNames hlist
  obtain ⟨hs1, hs2⟩ := oneAtATime_eq env registry repo authorization tagNames GoMap.empty hret
  rw [hF]
  by_cases hd : ∃ t ∈ tagNames, ∃ d e,
      fetchRepoDigest env registry repo t authorization = .ok (d, some e)
  · have hd' : ∃ t ∈ tagNames.drop 0, ∃ d e,
        fetchRepoDigest env registry repo t authorization = .ok (d, some e) := by simpa using hd
    rw [hs1 hd, batchLoop_dirty env arrival hfair registry repo authorization tagNames steps
      remain c h1 hcalc hret steps.toNat 1 0 GoMap.empty (le_refl _) e1 e2 hd']
  · have hall : ∀ t ∈ tagNames, fetchRepoDigest env registry repo t authorization =
        .ok (digestOf env registry repo authorization t, none) := by
      intro t ht
      obtain ⟨d, e, hde⟩ := hret t ht
      cases e with
      | none => rw [digestOf_eq _ _ _ _ _ _ _ hde, hde]
      | some e => exact absurd ⟨t, ht, d, e, hde⟩ hd
    rw [hs2 hd, batchLoop_clean env arrival hfair registry repo authorization tagNames steps
      remain c h1 hcalc _ hall steps.toNat 1 0 GoMap.empty (le_refl _) e1 e2]
    simp

/-- C12: for a fixed listing and fetches that each return an outcome, runs
with any two concurrency values in [1,128] return the same map and the same
error, namely what processing the tags one at a time in input order returns:
an error exactly when some tag's fetch has a non-nil error, and otherwise the
map from each tag to its digest. -/
theorem concurrency_irrelevant (env : Env) (arrival₁ arrival₂ : Arrival)
    (registry repo authorization : String) (c₁ c₂ : Int) (tagNames : List String)
    (hfair₁ : arrival₁.Fair) (hfair₂ : arrival₂.Fair)
    (h1 : 1 ≤ c₁) (h2 : c₁ ≤ 128) (h3 : 1 ≤ c₂) (h4 : c₂ ≤ 128)
    (hlist : fetchTagNames env registry repo authorization = .ok tagNames)
    (hret : ∀ t ∈ tagNames, ∃ d e,
      fetchRepoDigest env registry repo t authorization = .ok (d, e)) :
    (FetchTags env arrival₁ registry repo authorization c₁).2 =
      (FetchTags env arrival₂ registry repo authorization c₂).2 ∧
    (FetchTags env arrival₁ registry repo authorization c₁).2 =
      oneAtATime env registry repo authorization tagNames GoMap.empty ∧
    ((∃ m e, (FetchTags env arrival₁ registry repo authorization c₁).2 =
        .returned m (some e)) ↔
      ∃ t ∈ tagNames, ∃ d e,
        fetchRepoDigest env registry repo t authorization = .ok (d, some e)) ∧
    ((¬ ∃ t ∈ tagNames, ∃ d e,
        fetchRepoDigest env registry repo t authorization = .ok (d, some e)) →
      (FetchTags env arrival₁ registry repo authorization c₁).2 =
        .returned (some fun x =>
          if x ∈ tagNames then some (digestOf env registry repo authorization x) else none)
          none) := by
  have e₁ := FetchTags_eq_oneAtATime env arrival₁ registry repo authorization c₁ tagNames
    hfair₁ h1 h2 hlist hret
  have e₂ := FetchTags_eq_oneAtATime env arrival₂ registry repo authorization c₂ tagNames
    hfair₂ h3 h4 hlist hret
  obtain ⟨hs1, hs2⟩ := oneAtATime_eq env registry repo authorization tagNames GoMap.empty hret
  refine ⟨by rw [e₁, e₂], e₁, ?_, ?_⟩
  · constructor
    · rintro ⟨m, e, hme⟩
      by_contra hd
      rw [e₁, hs2 hd] at hme
      cases hme
    · intro hd
      exact ⟨none, _, by rw [e₁, hs1 hd]⟩
  · intro hd
    rw [e₁, hs2 hd]
    rfl

/-- Witness of `concurrency_irrelevant`: tags a, b, c fetched with concurrency 1
in launch order and with concurrency 3 in reverse order. -/
theorem concurrency_irrelevant_witness :
    (FetchTags (stubEnv "r" "p" ["a", "b", "c"] fun t => .ok (digestResponseOk (demoDigest t)))
        inOrder "r" "p" "auth" 1).2 =
      (FetchTags (stubEnv "r" "p" ["a", "b", "c"] fun t => .ok (digestResponseOk (demoDigest t)))
        reversed "r" "p" "auth" 3).2 :=
  (concurrency_irrelevant _ inOrder reversed "r" "p" "auth" 1 3 ["a", "b", "c"]
    (fun _ l => List.Perm.refl l) (fun _ l => List.reverse_perm l) (by decide) (by decide)
    (by decide) (by decide) (by decide)
    (by
      intro t ht
      simp only [List.mem_cons, List.mem_singleton, List.not_mem_nil, or_false] at ht
      rcases ht with rfl | rfl | rfl
      · exact ⟨"da", none, by decide⟩
      · exact ⟨"db", none, by decide⟩
      · exact ⟨"dc", none, by decide⟩)).1

/-- A send on a channel that at most `cap` goroutines send on, once each,
finds room in the buffer, whatever has been received so far. -/
theorem send_finds_room (ops : List ChanOp) (cap : Int) (h : (sends ops : Int) ≤ cap)
    (p : List ChanOp) (hp : p ++ [ChanOp.send] <+: ops) : buffered p < cap := by
  have h1 : sends (p ++ [ChanOp.send]) ≤ sends ops := hp.sublist.count_le _
  have h2 : sends (p ++ [ChanOp.send]) = sends p + 1 := by
    simp [sends, List.count_append]
  unfold buffered
  omega

/-- Each batch that runs makes a channel whose capacity is the batch's step
size, between 1 and the limit, and launches exactly that many goroutines. -/
theorem batchLoop_channels (env : Env) (arrival : Arrival)
    (registry repo authorization : String) (tagNames : List String)
    (steps remain limit : Int) (hl : 1 ≤ limit)
    (hcalc : calculateBatchSteps tagNames.length limit = .ok (steps, remain)) :
    ∀ (n : Nat) (b : Int) (k : Nat) (tags : GoMap String),
      1 ≤ b → b + n = steps + 1 → (k : Int) = min ((b - 1) * limit) tagNames.length →
      ∀ b' cap, Event.makeChan b' cap ∈
          (batchLoop env arrival registry repo authorization tagNames steps remain limit
            n b (k : Int) tags).1 →
        cap = calculateBatchStepSize b' steps remain limit ∧ 1 ≤ cap ∧ cap ≤ limit ∧
        (launchedIn b' (batchLoop env arrival registry repo authorization tagNames steps remain
          limit n b (k : Int) tags).1 : Int) = cap ∧
        collectedIn b' (batchLoop env arrival registry repo authorization tagNames steps remain
          limit n b (k : Int) tags).1 ≤
          launchedIn b' (batchLoop env arrival registry repo authorization tagNames steps remain
            limit n b (k : Int) tags).1 := by
  intro n b k tags hb1 hbn hk
  have hA := batchLoop_batches env arrival registry repo authorization tagNames steps remain
    limit hl hcalc
  revert n b k tags
  apply batchLoop_induction env arrival registry repo authorization tagNames steps remain limit
    hl hcalc (fun _ _ _ out => ∀ b' cap, Event.makeChan b' cap ∈ out.1 →
        cap = calculateBatchStepSize b' steps remain limit ∧ 1 ≤ cap ∧ cap ≤ limit ∧
        (launchedIn b' out.1 : Int) = cap ∧ collectedIn b' out.1 ≤ launchedIn b' out.1)
  · intro tags b' cap h; simp at h
  · intro n b k s tags hb1 hbn hk hs hs1 hsl hks ih rl hrl b' cap hmem
    obtain ⟨rs, hrs, hrs1, hrs2⟩ := receiveLoop_trace b s
      (arrival b (((tagNames.drop k).take s).map
        fun t => goroutine env registry repo t authorization)) tags
    rw [← hrl] at hrs hrs2
    have hle : k + s ≤ tagNames.length := by
      have : ((k + s : Nat) : Int) ≤ tagNames.length := by rw [hks]; exact min_le_right _ _
      exact_mod_cast this
    have hlen : ((tagNames.drop k).take s).length = s := by simp; omega
    obtain ⟨-, -, hX3, hX4, hX5, -⟩ := block_facts b k _ rs s hlen hrs1
    have hrest : ∀ e ∈ (continueWith rl.2 fun tags' =>
        batchLoop env arrival registry repo authorization tagNames steps remain limit
          n (b + 1) ((k + s : Nat) : Int) tags').1, ∀ b'', batchOf e = some b'' → b + 1 ≤ b'' := by
      intro e he b'' hb''
      cases hc : rl.2 with
      | done tags' =>
        rw [hc] at he
        exact hA n (b + 1) (k + s) tags' (by omega) (by omega) (by rw [hks]; ring_nf) e he b'' hb''
      | abort err => rw [hc] at he; simp [continueWith] at he
      | crashed p => rw [hc] at he; simp [continueWith] at he
      | blocked => rw [hc] at he; simp [continueWith] at he
    have hT : Event.makeChan b (s : Int) :: (launchEvents b k ((tagNames.drop k).take s) ++
        rl.1 ++ (continueWith rl.2 fun tags' =>
          batchLoop env arrival registry repo authorization tagNames steps remain limit
            n (b + 1) ((k + s : Nat) : Int) tags').1) =
        (Event.makeChan b (s : Int) :: (launchEvents b k ((tagNames.drop k).take s) ++
          rs.map (Event.receive b))) ++ (continueWith rl.2 fun tags' =>
          batchLoop env arrival registry repo authorization tagNames steps remain limit
            n (b + 1) ((k + s : Nat) : Int) tags').1 := by
      rw [hrs]; rfl
    simp only [hT] at hmem ⊢
    rw [launchedIn_append, collectedIn_append, hX3, hX4]
    rcases List.mem_append.1 hmem with hX | hR
    · have hb : b' = b := by
        have := hX5 _ hX
        simpa [batchOf] using this
      subst hb
      have hcap : cap = (s : Int) := by
        simp only [List.mem_cons, Event.makeChan.injEq, List.mem_append] at hX
        rcases hX with ⟨_, h⟩ | h | h
        · exact h
        · exact absurd h ((launchEvents_counts b' _ _).2.2.2.2.2.2.2 b' cap)
        · exact absurd h ((receives_counts b' rs).2.2.2.2.2.2.2.1 b' cap)
      obtain ⟨h4, h5, -, -⟩ := no_batch_counts b' _ (fun e he hbe => by
        have := hrest e he b' hbe; omega)
      rw [h4, h5, if_pos rfl, if_pos rfl, hcap]
      refine ⟨hs, by omega, hsl, by simp, by omega⟩
    · have hb : b + 1 ≤ b' := hrest _ hR b' rfl
      rw [if_neg (by omega), if_neg (by omega)]
      cases hc : rl.2 with
      | done tags' =>
        rw [hc] at hR
        obtain ⟨g1, g2, g3, g4, g5⟩ := ih tags' b' cap hR
        refine ⟨g1, g2, g3, ?_, ?_⟩
        · simpa [continueWith] using g4
        · simpa [continueWith] using g5
      | abort err => rw [hc] at hR; simp [continueWith] at hR
      | crashed p => rw [hc] at hR; simp [continueWith] at hR
      | blocked => rw [hc] at hR; simp [continueWith] at hR

/-- C15: in every run of `FetchTags` the controlling flow never panics; a limit
that passes validation, the divisor of `calculateBatchSteps`, is in [1,128], so
the division never fails; every batch's channel is made with a capacity equal
to the batch's step size, between 1 and the limit, and exactly that many
goroutines are launched to send on it once each; hence a send on that channel
always finds room in the buffer, whatever the controller has received. -/
theorem channels_never_block (env : Env) (arrival : Arrival)
    (registry repo authorization : String) (c : Int) :
    (∀ p, (FetchTags env arrival registry repo authorization c).2 ≠ .panicked p) ∧
    (∀ limit, validateConcurrency c = (limit, none) →
      1 ≤ limit ∧ limit ≤ 128 ∧
      ∀ count, calculateBatchSteps count limit ≠ .error .divideByZero) ∧
    (∀ b cap, Event.makeChan b cap ∈ (FetchTags env arrival registry repo authorization c).1 →
      1 ≤ cap ∧ cap ≤ c ∧
      (∀ tagNames steps remain, fetchTagNames env registry repo authorization = .ok tagNames →
        calculateBatchSteps tagNames.length c = .ok (steps, remain) →
        cap = calculateBatchStepSize b steps remain c) ∧
      (launchedIn b (FetchTags env arrival registry repo authorization c).1 : Int) = cap ∧
      collectedIn b (FetchTags env arrival registry repo authorization c).1 ≤
        launchedIn b (FetchTags env arrival registry repo authorization c).1 ∧
      ∀ ops : List ChanOp,
        sends ops ≤ launchedIn b (FetchTags env arrival registry repo authorization c).1 →
        ∀ p, p ++ [ChanOp.send] <+: ops → buffered p < cap) := by
  have hv : ∀ limit, validateConcurrency c = (limit, none) → 1 ≤ c ∧ c ≤ 128 ∧ limit = c := by
    intro limit h
    unfold validateConcurrency at h
    simp only at h
    split at h
    · cases h
    · split at h
      · cases h
      · injection h with h _
        exact ⟨by omega, by omega, h.symm⟩
  by_cases hc : 1 ≤ c ∧ c ≤ 128
  · obtain ⟨h1, h2⟩ := hc
    refine ⟨?_, ?_, ?_⟩
    · cases hlist : fetchTagNames env registry repo authorization with
      | error err =>
        intro p hp
        simp [FetchTags, validateConcurrency_valid c h1 h2, hlist] at hp
      | ok tagNames =>
        obtain ⟨steps, remain, hcalc, e1, e2, hF⟩ :=
          FetchTags_valid env arrival registry repo authorization c h1 h2 tagNames hlist
        rw [hF]
        exact (batchLoop_launches env arrival registry repo authorization tagNames
          steps remain c h1 hcalc steps.toNat 1 0 GoMap.empty (le_refl _) e1 e2).2.1
    · intro limit h
      obtain ⟨_, _, rfl⟩ := hv limit h
      refine ⟨h1, h2, ?_⟩
      intro count hd
      unfold calculateBatchSteps at hd
      rw [if_neg (by omega)] at hd
      simp only at hd
      split at hd <;> cases hd
    · intro b cap hmem
      cases hlist : fetchTagNames env registry repo authorization with
      | error err =>
        simp [FetchTags, validateConcurrency_valid c h1 h2, hlist] at hmem
      | ok tagNames =>
        obtain ⟨steps, remain, hcalc, e1, e2, hF⟩ :=
          FetchTags_valid env arrival registry repo authorization c h1 h2 tagNames hlist
        have hc3 : ∀ b' url tr, launchedIn b' (Event.listRequest url :: tr) = launchedIn b' tr := by
          intro b' url tr; simp [launchedIn, List.countP_cons]
        have hc4 : ∀ b' url tr,
            collectedIn b' (Event.listRequest url :: tr) = collectedIn b' tr := by
          intro b' url tr; simp [collectedIn, List.countP_cons]
        rw [hF] at hmem ⊢
        simp only [List.mem_cons] at hmem
        rcases hmem with hmem | hmem
        · cases hmem
        · obtain ⟨g1, g2, g3, g4, g5⟩ := batchLoop_channels env arrival registry repo
            authorization tagNames steps remain c h1 hcalc steps.toNat 1 0 GoMap.empty
            (le_refl _) e1 e2 b cap hmem
          simp only [hc3, hc4]
          refine ⟨g2, g3, ?_, g4, g5, ?_⟩
          · intro tagNames' steps' remain' hl' hcalc'
            injection hl' with hl'
            subst hl'
            rw [hcalc] at hcalc'
            injection hcalc' with hcalc'
            injection hcalc' with hs hr
            subst hs hr
            exact g1
          · intro ops hops p hp
            exact send_finds_room ops cap (by rw [← g4]; exact_mod_cast hops) p hp
  · have herr : ∃ err, validateConcurrency c = (0, some err) := by
      unfold validateConcurrency
      simp only
      split
      · exact ⟨_, rfl⟩
      · rw [if_pos (by omega)]
        exact ⟨_, rfl⟩
    obtain ⟨err, herr⟩ := herr
    have hF : FetchTags env arrival registry repo authorization c =
        ([], .returned none (some err)) := by simp [FetchTags, herr]
    refine ⟨?_, ?_, ?_⟩
    · intro p hp; rw [hF] at hp; cases hp
    · intro limit h
      obtain ⟨h1, h2, _⟩ := hv limit h
      exact absurd ⟨h1, h2⟩ hc
    · intro b cap hmem
      rw [hF] at hmem
      simp at hmem

/-- Witness of `channels_never_block`: tags v1..v5 with concurrency 2; the third
batch makes a channel of capacity 1 and launches one goroutine, whose send
finds the buffer empty. -/
theorem channels_never_block_witness :
    (launchedIn 3 (FetchTags (stubEnv "r" "p" ["v1", "v2", "v3", "v4", "v5"]
        fun t => .ok (digestResponseOk (demoDigest t))) inOrder "r" "p" "auth" 2).1 : Int) = 1 ∧
    buffered [] < 1 := by
  obtain ⟨_, _, _, h4, _, h6⟩ := (channels_never_block (stubEnv "r" "p"
      ["v1", "v2", "v3", "v4", "v5"] fun t => .ok (digestResponseOk (demoDigest t)))
      inOrder "r" "p" "auth" 2).2.2 3 1 (by decide)
  exact ⟨h4, h6 [ChanOp.send] (by decide) [] (by decide)⟩

end Registry

/-! # Properties of the local tag reader -/

namespace Local

open Registry (GoPanic sliceIndex)

theorem splitChars_ne_nil (sep : Char) : ∀ cs : List Char, splitChars sep cs ≠ []
  | [] => by simp [splitChars]
  | c :: cs => by
    unfold splitChars
    split
    · simp
    · split <;> simp

/-- A string that holds the separator splits into at least two fields. -/
theorem splitChars_length (sep : Char) :
    ∀ cs : List Char, sep ∈ cs → 2 ≤ (splitChars sep cs).length
  | [], h => by simp at h
  | c :: cs, h => by
    unfold splitChars
    by_cases hc : c = sep
    · rw [if_pos hc]
      have := List.length_pos.2 (splitChars_ne_nil sep cs)
      simp only [List.length_cons]
      omega
    · rw [if_neg hc]
      have hmem : sep ∈ cs := by
        simp only [List.mem_cons] at h
        rcases h with h | h
        · exact absurd h.symm hc
        · exact h
      have ih := splitChars_length sep cs hmem
      split
      · next f fs hf => rw [hf] at ih; simpa using ih
      · next hf => rw [hf] at ih; simp at ih

theorem sliceIndex_one {α : Type} (xs : List α) (h : 2 ≤ xs.length) :
    ∃ x, sliceIndex xs 1 = .ok x := by
  match xs, h with
  | _ :: y :: _, _ => exact ⟨y, by simp [sliceIndex]⟩

/-- The loop of `extractTagNames` never panics and appends one name for each
element that starts with `repo + ":"`. -/
theorem extractTagNamesLoop_total (repo : String) :
    ∀ (repoTags tagNames : List String),
      ∃ names, extractTagNamesLoop repo repoTags tagNames = .ok (tagNames ++ names) ∧
        names.length = (repoTags.filter fun tag => HasPrefix tag (repo ++ ":")).length := by
  intro repoTags
  induction repoTags with
  | nil => intro tagNames; exact ⟨[], by simp [extractTagNamesLoop]⟩
  | cons tag rest ih =>
    intro tagNames
    by_cases hp : HasPrefix tag (repo ++ ":") = true
    · have hmem : ':' ∈ tag.data := by
        have h1 : (repo ++ ":").data <+: tag.data := List.isPrefixOf_iff_prefix.1 hp
        exact h1.subset (by simp)
      obtain ⟨name, hname⟩ := sliceIndex_one (Split tag ':') (by
        simpa [Split] using splitChars_length ':' tag.data hmem)
      obtain ⟨names, h1, h2⟩ := ih (tagNames ++ [name])
      refine ⟨name :: names, ?_, ?_⟩
      · simp only [extractTagNamesLoop, hp, if_true, hname]
        rw [h1]; simp
      · simp [List.filter_cons, hp, h2]
    · obtain ⟨names, h1, h2⟩ := ih tagNames
      refine ⟨names, ?_, ?_⟩
      · simp only [extractTagNamesLoop, hp]
        exact h1
      · simp [List.filter_cons, hp, h2]

/-- C13: for the repository `localhost:5000/img`, whose name holds a ':', and the
image tag `localhost:5000/img:v1`, `extractTagNames` returns `5000/img`, which is
not the remainder `v1` of the element after `repo + ":"`. -/
theorem extractTagNames_port_repo :
    extractTagNames ["localhost:5000/img:v1"] "localhost:5000/img" = .ok ["5000/img"] ∧
    "localhost:5000/img" ++ ":" ++ "5000/img" ≠ "localhost:5000/img:v1" := by
  decide

/-- `extractRepoDigest` returns when the list is empty or its first element
holds an '@'. -/
theorem extractRepoDigest_with_at (repoDigests : List String)
    (h : ∀ d ∈ repoDigests.head?, '@' ∈ d.data) :
    ∃ digest, extractRepoDigest repoDigests = .ok digest := by
  match repoDigests, h with
  | [], _ => exact ⟨"", by simp [extractRepoDigest]⟩
  | d :: ds, h =>
    have hd : '@' ∈ d.data := h d (by simp)
    obtain ⟨x, hx⟩ := sliceIndex_one (Split d '@') (by
      simpa [Split] using splitChars_length '@' d.data hd)
    have h0 : sliceIndex (d :: ds) 0 = .ok d := by simp [sliceIndex]
    exact ⟨x, by simp only [extractRepoDigest, h0, hx]; simp⟩

/-- C14: on the one-element list `["ubuntu"]`, whose element holds no '@',
`extractRepoDigest` fails with an index out of range at `digestFields[1]`. -/
theorem extractRepoDigest_no_at :
    extractRepoDigest ["ubuntu"] = .error GoPanic.indexOutOfRange := by
  decide

end Local
